import Mathlib

/-!
# Mayo: the arena-indexed tree of `src/base/libtree.h` and its clients

A shallow embedding of `Mayo::Tree<T>` and of the free function
`deepForeachTreeNode` (`src/base/libtree.h`), of the construction of the assembly
tree in `XdeDocumentItem` (`src/base/xde_document_item.cpp`) and of
`partFormatFromFilter` (`src/mainwindow.cpp`), followed by the properties that
the specification states about them.

Modelling conventions
* `TreeNodeId` (`uint32_t` in the source) is the type `Nat`; `0` is "no node".  The only
  arithmetic the source performs on identifiers is `id - 1` behind the guard
  `id != 0`, and the conversion of `m_vecNode.size()`; identifiers are therefore
  kept as mathematical integers, i.e. the arena is taken to be smaller than
  `2^32` nodes, where the conversion is the identity.
* `std::vector` is a `List`; `push_back` is `++ [x]`, `at(i)` is `l[i]?`.
* A `TreeNode*` obtained from `ptrNode` is the `Option` of the node it points
  to (`none` is `nullptr`); a write through such a pointer is `writeNode`,
  which fails (`none`) on `nullptr`.  Operations that dereference pointers are
  `Option`-valued for that reason.
* The parameter `const T& data` of `appendChild` is a value when it refers to an
  object outside the arena (`Tree.appendChild`); `Tree.appendChildRef` covers an
  argument that refers into the arena, which `push_back` can invalidate.
* Recursion that the source does not bound (`deepForeachTreeNode`,
  `deepBuildAssemblyTree`) carries a fuel argument; `none` means that the fuel
  ran out.
* What the sources only call but do not define (the shape-tool queries of the
  geometry kernel, the format table of `IO`) is a parameter; the contract macro
  `Expects` is modelled from the specification.
-/

set_option autoImplicit false

namespace Mayo

/-- The record `Tree<T>::TreeNode`. -/
structure TreeNode (T : Type) where
  siblingPrevious : Nat
  siblingNext : Nat
  childFirst : Nat
  childLast : Nat
  parent : Nat
  data : T
deriving DecidableEq, Repr

/-- The value-initialised node `{}` pushed by `m_vecNode.push_back({})`. -/
instance instInhabitedTreeNode {T : Type} [Inhabited T] : Inhabited (TreeNode T) :=
  ⟨⟨0, 0, 0, 0, 0, default⟩⟩

/-- The class `Tree<T>`: the arena `m_vecNode` and the root list `m_vecRoot`. -/
structure Tree (T : Type) where
  m_vecNode : List (TreeNode T)
  m_vecRoot : List Nat
deriving DecidableEq, Repr

namespace Tree

variable {T : Type}

/-- The constructor `Tree<T>::Tree()`: both vectors empty. -/
def empty : Tree T := ⟨[], []⟩

/-- `Tree<T>::lastNodeId`: `static_cast<TreeNodeId>(m_vecNode.size())`, the size of
the arena (the conversion is the identity for an arena below `2^32` nodes). -/
def lastNodeId (t : Tree T) : Nat := t.m_vecNode.length

/-- `Tree<T>::ptrNode`:
`id != 0 && id <= m_vecNode.size() ? &m_vecNode.at(id - 1) : nullptr`. -/
def ptrNode (t : Tree T) (id : Nat) : Option (TreeNode T) :=
  if id ≠ 0 ∧ id ≤ t.m_vecNode.length then t.m_vecNode[id - 1]? else none

/-- A write `ptrNode(id)->field = ...`: replaces the node that `ptrNode(id)`
points to by its image under `f`; dereferencing `nullptr` fails. -/
def writeNode (t : Tree T) (id : Nat) (f : TreeNode T → TreeNode T) :
    Option (Tree T) :=
  match t.ptrNode id with
  | none => none
  | some node => some { t with m_vecNode := t.m_vecNode.set (id - 1) (f node) }

/-- `Tree<T>::nodeSiblingPrevious`. -/
def nodeSiblingPrevious (t : Tree T) (id : Nat) : Nat :=
  match t.ptrNode id with
  | some node => node.siblingPrevious
  | none => 0

/-- `Tree<T>::nodeSiblingNext`. -/
def nodeSiblingNext (t : Tree T) (id : Nat) : Nat :=
  match t.ptrNode id with
  | some node => node.siblingNext
  | none => 0

/-- `Tree<T>::nodeChildFirst`. -/
def nodeChildFirst (t : Tree T) (id : Nat) : Nat :=
  match t.ptrNode id with
  | some node => node.childFirst
  | none => 0

/-- `Tree<T>::nodeChildLast`. -/
def nodeChildLast (t : Tree T) (id : Nat) : Nat :=
  match t.ptrNode id with
  | some node => node.childLast
  | none => 0

/-- `Tree<T>::nodeParent`. -/
def nodeParent (t : Tree T) (id : Nat) : Nat :=
  match t.ptrNode id with
  | some node => node.parent
  | none => 0

/-- `Tree<T>::nodeData`; `nullObject` is the default-constructed `T`. -/
def nodeData [Inhabited T] (t : Tree T) (id : Nat) : T :=
  match t.ptrNode id with
  | some node => node.data
  | none => default

/-- `Tree<T>::nodeIsRoot`. -/
def nodeIsRoot (t : Tree T) (id : Nat) : Bool :=
  match t.ptrNode id with
  | some node => node.parent == 0
  | none => false

/-- `Tree<T>::roots`. -/
def roots (t : Tree T) : List Nat := t.m_vecRoot

/-- `Tree<T>::clear`. -/
def clear (_t : Tree T) : Tree T := ⟨[], []⟩

/-- `Tree<T>::appendChild`, statement by statement, for an argument `const T& data`
that refers to an object outside `m_vecNode` (a temporary, a variable of the
caller, the static `nullObject`): such a reference stays valid across
`push_back`, and `data` is the value it refers to.  The call with an argument
that refers into the arena is `appendChildRef` below.  The result is the
returned identifier and the tree after the call; `none` when the body
dereferences a null `ptrNode` result. -/
def appendChild [Inhabited T] (t : Tree T) (parentId : Nat) (data : T) :
    Option (Nat × Tree T) :=
  -- m_vecNode.push_back({});
  let t1 : Tree T := { t with m_vecNode := t.m_vecNode ++ [default] }
  -- const TreeNodeId nodeId = this->lastNodeId();  TreeNode* node = &m_vecNode.back();
  let nodeId := t1.lastNodeId
  -- node->data = data;
  (t1.writeNode nodeId fun node => { node with data := data }).bind fun t2 =>
  -- node->parent = parentId;
  (t2.writeNode nodeId fun node => { node with parent := parentId }).bind fun t3 =>
  -- node->siblingPrevious = this->nodeChildLast(parentId);
  (t3.writeNode nodeId fun node =>
      { node with siblingPrevious := t3.nodeChildLast parentId }).bind fun t4 =>
  if parentId ≠ 0 then
    -- TreeNode* parentNode = this->ptrNode(parentId);
    -- if (parentNode->childFirst == 0) parentNode->childFirst = nodeId;
    (t4.ptrNode parentId).bind fun parentNode =>
    (if parentNode.childFirst = 0 then
        t4.writeNode parentId fun node => { node with childFirst := nodeId }
      else some t4).bind fun t5 =>
    -- if (parentNode->childLast != 0) this->ptrNode(parentNode->childLast)->siblingNext = nodeId;
    (t5.ptrNode parentId).bind fun parentNode =>
    (if parentNode.childLast ≠ 0 then
        t5.writeNode parentNode.childLast fun node => { node with siblingNext := nodeId }
      else some t5).bind fun t6 =>
    -- parentNode->childLast = nodeId;
    (t6.writeNode parentId fun node => { node with childLast := nodeId }).bind fun t7 =>
    some (nodeId, t7)
  else
    -- m_vecRoot.push_back(nodeId);
    some (nodeId, { t4 with m_vecRoot := t4.m_vecRoot ++ [nodeId] })

end Tree

/-- What the argument `const T& data` of `appendChild` refers to: an object
outside the arena `m_vecNode`, given by its value, or the payload that
`nodeData(id)` of the same tree returns a reference to. -/
inductive DataRef (T : Type) where
  | outside (value : T)
  | ofNodeData (id : Nat)

/-- The read of `data` in `node->data = data;`, which `appendChild` executes after
`m_vecNode.push_back({})`.  `reallocated` says whether that `push_back` moved the
arena to new storage (it does when `size() == capacity()`; the source reserves
nothing, so the capacity is the one the vector happens to have).  A reference
to an outside object, and the reference to `nullObject` that `nodeData` returns
for an unknown handle, are still valid.  A reference into the arena is valid
only if the arena was not moved; reading it after a move is a read through a
dangling reference, undefined behaviour (`none`).  The payload of an existing
node is not written between `push_back` and the read, so a valid reference
into the arena yields the payload the node had before the call. -/
def Tree.readDataRef {T : Type} [Inhabited T] (t : Tree T) (reallocated : Bool) :
    DataRef T → Option T
  | DataRef.outside value => some value
  | DataRef.ofNodeData id =>
    match t.ptrNode id with
    | none => some default
    | some node => if reallocated then none else some node.data

/-- `Tree<T>::appendChild(TreeNodeId parentId, const T& data)` for an arbitrary
argument: the body of `appendChild` with `data` read through the reference. -/
def Tree.appendChildRef {T : Type} [Inhabited T] (t : Tree T) (reallocated : Bool)
    (parentId : Nat) (data : DataRef T) : Option (Nat × Tree T) :=
  (t.readDataRef reallocated data).bind fun value => t.appendChild parentId value

/-- The loop `for (auto it = first; it != 0; it = tree.nodeSiblingNext(it)) body(it);`
of `deepForeachTreeNode(node, tree, func)`: `body it` is the sequence of
identifiers the loop body calls `func` with at `it`; the result is the
sequence over the whole loop. -/
def siblingLoop {T : Type} (tree : Tree T) (body : Nat → Option (List Nat)) :
    Nat → Nat → Option (List Nat)
  | 0, _ => none
  | fuel + 1, it =>
    if it = 0 then some []
    else
      (body it).bind fun visited =>
      (siblingLoop tree body fuel (tree.nodeSiblingNext it)).map fun rest => visited ++ rest

/-- `deepForeachTreeNode(node, tree, func)`: the sequence of identifiers `func`
is called with: `func(node)`, then the loop over the children of `node` whose
body is the recursive call. -/
def deepForeachTreeNodeFrom {T : Type} (tree : Tree T) :
    Nat → Nat → Option (List Nat)
  | 0, _ => none
  | fuel + 1, node =>
    (siblingLoop tree (deepForeachTreeNodeFrom tree fuel) (fuel + 1)
        (tree.nodeChildFirst node)).map fun rest => node :: rest

/-- `deepForeachTreeNode(tree, func)`:
`for (TreeNodeId node : tree.roots()) deepForeachTreeNode(node, tree, func);`. -/
def deepForeachTreeNode {T : Type} (tree : Tree T) (fuel : Nat) : Option (List Nat) :=
  (tree.roots.mapM fun node => deepForeachTreeNodeFrom tree fuel node).map List.flatten

open Tree

/-- The child chain of `p`: the identifiers met by starting at
`nodeChildFirst(p)` and following `nodeSiblingNext` until `0`. -/
def childChain {T : Type} (tree : Tree T) (fuel : Nat) (p : Nat) :
    Option (List Nat) :=
  siblingLoop tree (fun it => some [it]) fuel (tree.nodeChildFirst p)


/-- A handle the tree has issued: `ptrNode` does not return `nullptr` for it. -/
def Known {T : Type} (t : Tree T) (h : Nat) : Prop :=
  h ≠ 0 ∧ h ≤ t.m_vecNode.length

instance instDecidableKnown {T : Type} (t : Tree T) (h : Nat) : Decidable (Known t h) :=
  inferInstanceAs (Decidable (h ≠ 0 ∧ h ≤ t.m_vecNode.length))

/-- What a call `appendChild(p, v)` that dereferences no null pointer leaves
behind, in terms of the accessors of the tree before (`t`) and after (`t1`). -/
structure AppendPost {T : Type} (t : Tree T) (p : Nat) (v : T) (t1 : Tree T) : Prop where
  length_eq : t1.m_vecNode.length = t.m_vecNode.length + 1
  roots_eq : t1.m_vecRoot =
    if p = 0 then t.m_vecRoot ++ [t.m_vecNode.length + 1] else t.m_vecRoot
  new_node : t1.ptrNode (t.m_vecNode.length + 1) = some ⟨t.nodeChildLast p, 0, 0, 0, p, v⟩
  old_node : ∀ h nd, t.ptrNode h = some nd → t1.ptrNode h = some
    { nd with
      childFirst := if h = p ∧ nd.childFirst = 0 then t.m_vecNode.length + 1 else nd.childFirst
      childLast := if h = p then t.m_vecNode.length + 1 else nd.childLast
      siblingNext :=
        if h = t.nodeChildLast p then t.m_vecNode.length + 1 else nd.siblingNext }

/-- The handles whose `parent` field is `p`, in increasing order. -/
def childrenOf {T : Type} (t : Tree T) (p : Nat) : List Nat :=
  (List.range' 1 t.m_vecNode.length).filter fun h => t.nodeParent h == p

/-- The sibling fields of the nodes of `l` chain them into a doubly-linked list
that starts after `prev` and ends with `siblingNext == 0`. -/
def Linked {T : Type} (t : Tree T) : Nat → List Nat → Prop
  | _, [] => True
  | prev, a :: rest =>
    t.nodeSiblingPrevious a = prev ∧ t.nodeSiblingNext a = rest.headD 0 ∧ Linked t a rest

/-- The structural invariant of the arena: every link field is determined by
the `parent` fields. -/
structure WellFormed {T : Type} (t : Tree T) : Prop where
  roots_eq : t.m_vecRoot = childrenOf t 0
  parent_lt : ∀ h, Known t h → t.nodeParent h < h
  childFirst_eq : ∀ p, Known t p → t.nodeChildFirst p = (childrenOf t p).headD 0
  childLast_eq : ∀ p, Known t p → t.nodeChildLast p = (childrenOf t p).getLastD 0
  linked : ∀ p, Known t p → Linked t 0 (childrenOf t p)
  root_links : ∀ h, Known t h → t.nodeParent h = 0 →
    t.nodeSiblingPrevious h = 0 ∧ t.nodeSiblingNext h = 0

/-- The trees obtained from the empty tree by calls of `appendChild` whose
parent argument is `0` or a handle the tree returned before; the index lists
the handles the calls returned, in call order. -/
inductive BuiltBy {T : Type} [Inhabited T] : List Nat → Tree T → Prop
  | empty : BuiltBy [] Tree.empty
  | append {issued : List Nat} {t t1 : Tree T} {p h : Nat} {v : T} :
      BuiltBy issued t → (p = 0 ∨ p ∈ issued) → t.appendChild p v = some (h, t1) →
      BuiltBy (issued ++ [h]) t1

/-- A tree with one root, and the call list that builds it. -/
def sampleTree1 : Tree Nat := ⟨[⟨0, 0, 0, 0, 0, 10⟩], [1]⟩

/-- Two roots. -/
def sampleTree2 : Tree Nat := ⟨[⟨0, 0, 0, 0, 0, 10⟩, ⟨0, 0, 0, 0, 0, 20⟩], [1, 2]⟩

/-- Two roots; the first root has the child `3`. -/
def sampleTree3 : Tree Nat :=
  ⟨[⟨0, 0, 3, 3, 0, 10⟩, ⟨0, 0, 0, 0, 0, 20⟩, ⟨0, 0, 0, 0, 1, 30⟩], [1, 2]⟩

/-- Two roots; the first root has the children `3` and `4`. -/
def sampleTree4 : Tree Nat :=
  ⟨[⟨0, 0, 3, 4, 0, 10⟩, ⟨0, 0, 0, 0, 0, 20⟩, ⟨0, 4, 0, 0, 1, 30⟩, ⟨3, 0, 0, 0, 1, 40⟩], [1, 2]⟩

/-- Two roots; the first root has the children `3` and `4`, and `3` has the child `5`. -/
def sampleTree5 : Tree Nat :=
  ⟨[⟨0, 0, 3, 4, 0, 10⟩, ⟨0, 0, 0, 0, 0, 20⟩, ⟨0, 4, 5, 5, 1, 30⟩, ⟨3, 0, 0, 0, 1, 40⟩,
    ⟨0, 0, 0, 0, 3, 50⟩], [1, 2]⟩

/-- The states one tree object goes through under `appendChild` calls with valid
parents and `clear` calls; the index lists the handles returned since the most
recent `clear` (or since construction), in call order. -/
inductive ReachedBy {T : Type} [Inhabited T] : List Nat → Tree T → Prop
  | empty : ReachedBy [] Tree.empty
  | append {issued : List Nat} {t t1 : Tree T} {p h : Nat} {v : T} :
      ReachedBy issued t → (p = 0 ∨ Known t p) → t.appendChild p v = some (h, t1) →
      ReachedBy (issued ++ [h]) t1
  | clear {issued : List Nat} {t : Tree T} : ReachedBy issued t → ReachedBy [] t.clear

/-- The visit sequence of `deepForeachTreeNode(node, tree, func)`, taken at a
fuel that suffices in every tree built by `appendChild`. -/
def preorder {T : Type} (t : Tree T) (node : Nat) : List Nat :=
  (deepForeachTreeNodeFrom t (2 * t.m_vecNode.length + 1) node).getD []

/-- In the visit sequence `visits`, `a` is visited before `b`. -/
def VisitedBefore (visits : List Nat) (a b : Nat) : Prop :=
  a ∈ visits ∧ b ∈ visits ∧ visits.indexOf a < visits.indexOf b

/-- The node `d` is a proper descendant of `a`: following `nodeParent` from `d`
one or more times reaches `a`. -/
def IsDescendant {T : Type} (t : Tree T) (a d : Nat) : Prop :=
  ∃ k, 0 < k ∧ (t.nodeParent)^[k] d = a

/-! ## `Tree<T>::remove` -/

/-- Modelled from the spec: the contract macro `Expects` used by
`Tree<T>::remove` (its definition is not part of the sources): a condition that
holds lets execution continue, a condition that fails is a fatal assertion
failure (`none`), "assertion/fatal, not a silent no-op". -/
def Expects (cond : Bool) : Option Unit :=
  if cond then some () else none

/-- `Tree<T>::remove`: `Expects(false && "not implemented yet");`.  The result
is the tree after the call, `none` when the call does not return normally (a
string literal converts to `true`). -/
def Tree.remove {T : Type} (t : Tree T) (_id : Nat) : Option (Tree T) :=
  (Expects (false && true)).bind fun _ => some t

/-! ## `XdeDocumentItem`: building the assembly tree

The text of `xde_document_item.cpp` (kept between `#if 0` and `#endif` in this
revision of the sources). -/

/-- The external shape document as `XdeDocumentItem` queries it (the queries go
to `XCAFDoc_ShapeTool`, outside the sources): the free shapes and, per label,
its kind and its components, sub-shapes and referred label. -/
structure ShapeDocument (L : Type) where
  topLevelFreeShapes : List L
  isShapeAssembly : L → Bool
  shapeComponents : L → List L
  isShapeSimple : L → Bool
  shapeSubs : L → List L
  isShapeReference : L → Bool
  shapeReferred : L → L

/-- A range-based `for (const TDF_Label& child : labels) body(child);` whose body
updates the assembly tree. -/
def forEachLabel {L : Type} (body : Tree L → L → Option (Tree L)) :
    Tree L → List L → Option (Tree L)
  | t, [] => some t
  | t, child :: rest => (body t child).bind fun t1 => forEachLabel body t1 rest

/-- `XdeDocumentItem::deepBuildAssemblyTree(parentNode, label)` on the tree
`m_asmTree`; `none` when the fuel runs out (the external hierarchy is deeper
than the fuel) or `appendChild` dereferences a null pointer. -/
def deepBuildAssemblyTree {L : Type} [Inhabited L] (doc : ShapeDocument L) :
    Nat → Tree L → Nat → L → Option (Tree L)
  | 0, _, _, _ => none
  | fuel + 1, m_asmTree, parentNode, label =>
    -- const TreeNodeId node = m_asmTree.appendChild(parentNode, label);
    (m_asmTree.appendChild parentNode label).bind fun r =>
    let node := r.1
    if doc.isShapeAssembly label then
      forEachLabel (fun t child => deepBuildAssemblyTree doc fuel t node child) r.2
        (doc.shapeComponents label)
    else if doc.isShapeSimple label then
      forEachLabel (fun t child => deepBuildAssemblyTree doc fuel t node child) r.2
        (doc.shapeSubs label)
    else if doc.isShapeReference label then
      deepBuildAssemblyTree doc fuel r.2 node (doc.shapeReferred label)
    else some r.2

/-- `XdeDocumentItem::rebuildAssemblyTree`: `m_asmTree.clear();` then
`deepBuildAssemblyTree(0, rootLabel)` for every top-level free shape. -/
def rebuildAssemblyTree {L : Type} [Inhabited L] (doc : ShapeDocument L) (fuel : Nat)
    (m_asmTree : Tree L) : Option (Tree L) :=
  forEachLabel (fun t rootLabel => deepBuildAssemblyTree doc fuel t 0 rootLabel)
    m_asmTree.clear doc.topLevelFreeShapes

/-- The child labels of a label in the external hierarchy, in the words of the
specification: the components of an assembly, otherwise the sub-shapes of a
simple shape, otherwise the referred label of a reference, otherwise none. -/
def ShapeDocument.childLabels {L : Type} (doc : ShapeDocument L) (label : L) : List L :=
  if doc.isShapeAssembly label then doc.shapeComponents label
  else if doc.isShapeSimple label then doc.shapeSubs label
  else if doc.isShapeReference label then [doc.shapeReferred label]
  else []

/-- The sum of the sizes `size child` over `labels`; `none` if one of them is. -/
def sumSizes {L : Type} (size : L → Option Nat) : List L → Option Nat
  | [] => some 0
  | child :: rest => (size child).bind fun a => (sumSizes size rest).map fun b => a + b

/-- The number of nodes of the external hierarchy unfolded below `label` (the
label itself included); `none` when the unfolding is deeper than `fuel`.  The
hierarchy below `label` is finite iff some fuel gives a number. -/
def unfoldedSize {L : Type} (doc : ShapeDocument L) : Nat → L → Option Nat
  | 0, _ => none
  | fuel + 1, label =>
    (sumSizes (unfoldedSize doc fuel) (doc.childLabels label)).map fun n => n + 1

/-- The number of nodes of the whole unfolded external hierarchy. -/
def unfoldedTotal {L : Type} (doc : ShapeDocument L) (fuel : Nat) : Option Nat :=
  sumSizes (unfoldedSize doc fuel) doc.topLevelFreeShapes

/-! ## File-picker filters -/

/-- The enumeration `IO::PartFormat`. -/
inductive PartFormat where
  | Unknown
  | Iges
  | Step
  | OccBrep
  | Stl
deriving DecidableEq, Repr

/-- `Internal::partFormatFromFilter` of `mainwindow.cpp`: `std::find_if` over
`partFormats()` with the predicate `filter == partFormatFilter(format)`, and
`PartFormat::Unknown` when the search reaches `cend()`.  The table
`partFormats()` and the function `partFormatFilter` are declared in `io.h`
and defined outside the sources; they are parameters here. -/
def partFormatFromFilter (partFormats : List PartFormat)
    (partFormatFilter : PartFormat → String) (filter : String) : PartFormat :=
  match partFormats.find? fun format => filter == partFormatFilter format with
  | some format => format
  | none => PartFormat.Unknown

/-- A sample document: the assembly `1` has the components `2` and `3`; `2` is a
simple shape with the sub-shape `4`; `3` is a reference to `4`; `5` is a second
free shape. -/
def sampleDocument : ShapeDocument Nat where
  topLevelFreeShapes := [1, 5]
  isShapeAssembly := fun l => l == 1
  shapeComponents := fun l => if l == 1 then [2, 3] else []
  isShapeSimple := fun l => l == 2
  shapeSubs := fun l => if l == 2 then [4] else []
  isShapeReference := fun l => l == 3
  shapeReferred := fun _ => 4

/-- The assembly tree of `sampleDocument`. -/
def sampleAssemblyTree : Tree Nat :=
  ⟨[⟨0, 0, 2, 4, 0, 1⟩, ⟨0, 4, 3, 3, 1, 2⟩, ⟨0, 0, 0, 0, 2, 4⟩, ⟨2, 0, 5, 5, 1, 3⟩,
    ⟨0, 0, 0, 0, 4, 4⟩, ⟨0, 0, 0, 0, 0, 5⟩], [1, 6]⟩

/-- What building the subtrees for `labels` under the parent `p` adds to the
tree `t`, giving `t1`: the old nodes keep their parent, payload and (except
`p`) their children; `p` gains one child per label, in order, carrying that
label; the subtrees of the new children are numbered consecutively in visiting
order; and the children of every new node carry the child labels of its
payload. -/
structure BuildPost {L : Type} [Inhabited L] (doc : ShapeDocument L) (t : Tree L) (p : Nat)
    (labels : List L) (t1 : Tree L) : Prop where
  wf : WellFormed t1
  le : t.m_vecNode.length ≤ t1.m_vecNode.length
  frame_parent : ∀ h, Known t h → t1.nodeParent h = t.nodeParent h
  frame_data : ∀ h, Known t h → t1.nodeData h = t.nodeData h
  frame_children : ∀ q, q ≤ t.m_vecNode.length → q ≠ p → childrenOf t1 q = childrenOf t q
  new_children : ∃ cs, childrenOf t1 p = childrenOf t p ++ cs ∧
    (∀ c ∈ cs, t.m_vecNode.length < c) ∧ cs.map t1.nodeData = labels ∧
    (cs.map (preorder t1)).flatten =
      List.range' (t.m_vecNode.length + 1) (t1.m_vecNode.length - t.m_vecNode.length)
  iso : ∀ h, t.m_vecNode.length < h → h ≤ t1.m_vecNode.length →
    (childrenOf t1 h).map t1.nodeData = doc.childLabels (t1.nodeData h)

/-! # Properties -/

/-! ## Pointers and writes -/

theorem ptrNode_eq_none {T : Type} (t : Tree T) (h : Nat) (hk : ¬ Known t h) :
    t.ptrNode h = none := by
  unfold Tree.ptrNode
  exact if_neg hk

theorem ptrNode_isSome {T : Type} (t : Tree T) (h : Nat) (hk : Known t h) :
    ∃ nd, t.ptrNode h = some nd := by
  unfold Tree.ptrNode
  rw [if_pos (show h ≠ 0 ∧ h ≤ t.m_vecNode.length from hk)]
  have hlt : h - 1 < t.m_vecNode.length := by
    have h1 := hk.1
    have h2 := hk.2
    omega
  exact ⟨t.m_vecNode[h - 1], List.getElem?_eq_getElem hlt⟩

theorem known_of_ptrNode {T : Type} (t : Tree T) (h : Nat) (nd : TreeNode T)
    (hs : t.ptrNode h = some nd) : Known t h := by
  by_contra hk
  rw [ptrNode_eq_none t h hk] at hs
  cases hs

theorem writeNode_spec {T : Type} (t : Tree T) (id : Nat) (f : TreeNode T → TreeNode T)
    (nd : TreeNode T) (hs : t.ptrNode id = some nd) :
    ∃ t1, t.writeNode id f = some t1 ∧ t1.m_vecRoot = t.m_vecRoot ∧
      t1.m_vecNode.length = t.m_vecNode.length ∧
      ∀ k, t1.ptrNode k = if k = id then some (f nd) else t.ptrNode k := by
  have hk := known_of_ptrNode t id nd hs
  refine ⟨{ t with m_vecNode := t.m_vecNode.set (id - 1) (f nd) }, ?_, rfl, ?_, ?_⟩
  · unfold Tree.writeNode
    rw [hs]
  · simp
  · intro k
    have h1 := hk.1
    have h2 := hk.2
    unfold Tree.ptrNode
    simp only [List.length_set]
    by_cases hkk : k ≠ 0 ∧ k ≤ t.m_vecNode.length
    · rw [if_pos hkk, if_pos hkk, List.getElem?_set]
      by_cases hki : k = id
      · subst hki
        have hlt : k - 1 < t.m_vecNode.length := by omega
        simp [hlt]
      · have hne : id - 1 ≠ k - 1 := by
          have := hkk.1
          omega
        simp [hne, hki]
    · rw [if_neg hkk, if_neg hkk]
      have hki : k ≠ id := by
        rintro rfl
        exact hkk hk
      simp [hki]

theorem ptrNode_push {T : Type} (nodes : List (TreeNode T)) (r : List Nat)
    (x : TreeNode T) (k : Nat) :
    (Tree.mk (nodes ++ [x]) r).ptrNode k =
      if k = nodes.length + 1 then some x else (Tree.mk nodes r).ptrNode k := by
  unfold Tree.ptrNode
  simp only [List.length_append, List.length_singleton]
  by_cases hk : k = nodes.length + 1
  · subst hk
    simp
  · rw [if_neg hk]
    by_cases hkk : k ≠ 0 ∧ k ≤ nodes.length
    · have h1 := hkk.1
      have h2 := hkk.2
      have hlt : k - 1 < nodes.length := by omega
      rw [if_pos hkk, if_pos ⟨hkk.1, by omega⟩, List.getElem?_append_left hlt]
    · rw [if_neg hkk, if_neg]
      intro hc
      apply hkk
      exact ⟨hc.1, by have := hc.2; omega⟩

theorem writeNode_map {T : Type} (t : Tree T) (id : Nat) (f : TreeNode T → TreeNode T)
    (hk : Known t id) :
    ∃ t1, t.writeNode id f = some t1 ∧ t1.m_vecRoot = t.m_vecRoot ∧
      t1.m_vecNode.length = t.m_vecNode.length ∧
      ∀ k, t1.ptrNode k = if k = id then (t.ptrNode k).map f else t.ptrNode k := by
  obtain ⟨nd, hnd⟩ := ptrNode_isSome t id hk
  obtain ⟨t1, h1, h2, h3, h4⟩ := writeNode_spec t id f nd hnd
  refine ⟨t1, h1, h2, h3, ?_⟩
  intro k
  rw [h4]
  by_cases hki : k = id
  · subst hki
    simp [hnd]
  · simp [hki]

theorem appendChild_spec {T : Type} [Inhabited T] (t : Tree T) (p : Nat) (v : T)
    (hp : p = 0 ∨ Known t p) (hc : t.nodeChildLast p = 0 ∨ Known t (t.nodeChildLast p)) :
    ∃ t1, t.appendChild p v = some (t.m_vecNode.length + 1, t1) ∧ AppendPost t p v t1 := by
  obtain ⟨nodes, rts⟩ := t
  have hple : p ≠ nodes.length + 1 := by
    rcases hp with h | h
    · omega
    · have := h.2
      simp only at this
      omega
  -- the three writes to the node just pushed
  have e0 : (Tree.mk (nodes ++ [default]) rts).ptrNode (nodes.length + 1) = some default := by
    rw [ptrNode_push]; simp
  obtain ⟨t2, hw2, hr2, hl2, hp2⟩ := writeNode_spec _ _
    (fun node => { node with data := v }) _ e0
  have e2 : t2.ptrNode (nodes.length + 1) = some { (default : TreeNode T) with data := v } := by
    rw [hp2]; simp
  obtain ⟨t3, hw3, hr3, hl3, hp3⟩ := writeNode_spec _ _
    (fun node => { node with parent := p }) _ e2
  have e3 : t3.ptrNode (nodes.length + 1) = some ⟨0, 0, 0, 0, p, v⟩ := by
    rw [hp3, if_pos rfl]; rfl
  have hold3 : ∀ k, k ≠ nodes.length + 1 → t3.ptrNode k = (Tree.mk nodes rts).ptrNode k := by
    intro k hk
    rw [hp3, if_neg hk, hp2, if_neg hk, ptrNode_push, if_neg hk]
  have hcl : t3.nodeChildLast p = (Tree.mk nodes rts).nodeChildLast p := by
    unfold Tree.nodeChildLast
    rw [hold3 p hple]
  obtain ⟨t4, hw4, hr4, hl4, hp4⟩ := writeNode_spec _ _
    (fun node => { node with siblingPrevious := t3.nodeChildLast p }) _ e3
  have hold4 : ∀ k, k ≠ nodes.length + 1 → t4.ptrNode k = (Tree.mk nodes rts).ptrNode k := by
    intro k hk
    rw [hp4, if_neg hk, hold3 k hk]
  have e4 : t4.ptrNode (nodes.length + 1) =
      some ⟨(Tree.mk nodes rts).nodeChildLast p, 0, 0, 0, p, v⟩ := by
    rw [hp4, if_pos rfl, hcl]
  have hlen4 : t4.m_vecNode.length = nodes.length + 1 := by
    rw [hl4, hl3, hl2]; simp
  have hroot4 : t4.m_vecRoot = rts := by
    rw [hr4, hr3, hr2]
  have hstart : (Tree.mk nodes rts).appendChild p v =
      if p ≠ 0 then
        (t4.ptrNode p).bind fun parentNode =>
        (if parentNode.childFirst = 0 then
            t4.writeNode p fun node => { node with childFirst := nodes.length + 1 }
          else some t4).bind fun t5 =>
        (t5.ptrNode p).bind fun parentNode =>
        (if parentNode.childLast ≠ 0 then
            t5.writeNode parentNode.childLast fun node =>
              { node with siblingNext := nodes.length + 1 }
          else some t5).bind fun t6 =>
        (t6.writeNode p fun node => { node with childLast := nodes.length + 1 }).bind fun t7 =>
        some (nodes.length + 1, t7)
      else some (nodes.length + 1, { t4 with m_vecRoot := t4.m_vecRoot ++ [nodes.length + 1] }) := by
    unfold Tree.appendChild
    simp only [Tree.lastNodeId, List.length_append, List.length_singleton]
    rw [hw2, Option.some_bind, hw3, Option.some_bind, hw4, Option.some_bind]
  rw [hstart]
  clear hstart hw2 hw3 hw4 hp2 hp3 hp4 e0 e2 e3 hr2 hr3 hr4 hl2 hl3 hl4 hold3 hcl
  by_cases hp0 : p = 0
  · subst hp0
    refine ⟨{ t4 with m_vecRoot := t4.m_vecRoot ++ [nodes.length + 1] }, by simp, ?_, ?_, ?_, ?_⟩
    · simpa using hlen4
    · simp [hroot4]
    · have : ({ t4 with m_vecRoot := t4.m_vecRoot ++ [nodes.length + 1] } : Tree T).ptrNode
          (nodes.length + 1) = t4.ptrNode (nodes.length + 1) := rfl
      rw [this, e4]
    · intro h nd hnd
      have hk := known_of_ptrNode _ _ _ hnd
      have hne : h ≠ nodes.length + 1 := by
        have := hk.2
        simp only at this
        omega
      have : ({ t4 with m_vecRoot := t4.m_vecRoot ++ [nodes.length + 1] } : Tree T).ptrNode h
          = t4.ptrNode h := rfl
      rw [this, hold4 h hne, hnd]
      have h0 : h ≠ 0 := hk.1
      have hcl0 : (Tree.mk nodes rts).nodeChildLast 0 = 0 := by
        unfold Tree.nodeChildLast Tree.ptrNode
        simp
      simp [h0, hcl0]
  · have hpk : Known (Tree.mk nodes rts) p := hp.resolve_left hp0
    obtain ⟨pn, hpn⟩ := ptrNode_isSome _ _ hpk
    have hc0 : (Tree.mk nodes rts).nodeChildLast p = pn.childLast := by
      unfold Tree.nodeChildLast
      rw [hpn]
    rw [hc0] at hc
    have hpk4 : Known t4 p := ⟨hpk.1, by rw [hlen4]; have := hpk.2; simp only at this; omega⟩
    -- childFirst
    have h5 : ∃ t5, (if pn.childFirst = 0 then
            t4.writeNode p fun node => { node with childFirst := nodes.length + 1 }
          else some t4) = some t5 ∧ t5.m_vecRoot = t4.m_vecRoot ∧
          t5.m_vecNode.length = t4.m_vecNode.length ∧
          ∀ k, t5.ptrNode k = if k = p then (t4.ptrNode k).map (fun node =>
            { node with childFirst := if pn.childFirst = 0 then nodes.length + 1
                                      else node.childFirst }) else t4.ptrNode k := by
      by_cases hcf : pn.childFirst = 0
      · obtain ⟨t5, a1, a2, a3, a4⟩ := writeNode_map t4 p
          (fun node => { node with childFirst := nodes.length + 1 }) hpk4
        refine ⟨t5, by rw [if_pos hcf, a1], a2, a3, ?_⟩
        intro k
        rw [a4]
        simp [hcf]
      · refine ⟨t4, by rw [if_neg hcf], rfl, rfl, ?_⟩
        intro k
        by_cases hkp : k = p
        · subst hkp
          rw [if_pos rfl, hold4 k hple, hpn]
          simp [hcf]
        · rw [if_neg hkp]
    obtain ⟨t5, hw5, hr5, hl5, hp5⟩ := h5
    have e5 : t5.ptrNode p = some { pn with childFirst :=
        if pn.childFirst = 0 then nodes.length + 1 else pn.childFirst } := by
      rw [hp5, if_pos rfl, hold4 p hple, hpn]
      rfl
    -- siblingNext of the former last child
    have h6 : ∃ t6, (if pn.childLast ≠ 0 then
            t5.writeNode pn.childLast fun node => { node with siblingNext := nodes.length + 1 }
          else some t5) = some t6 ∧ t6.m_vecRoot = t5.m_vecRoot ∧
          t6.m_vecNode.length = t5.m_vecNode.length ∧
          ∀ k, t6.ptrNode k = if k = pn.childLast then (t5.ptrNode k).map (fun node =>
            { node with siblingNext := nodes.length + 1 }) else t5.ptrNode k := by
      by_cases hcl0 : pn.childLast = 0
      · refine ⟨t5, by simp [hcl0], rfl, rfl, ?_⟩
        intro k
        by_cases hkc : k = pn.childLast
        · rw [if_pos hkc, hkc, hcl0, ptrNode_eq_none t5 0 (fun hh => hh.1 rfl)]
          rfl
        · rw [if_neg hkc]
      · have hck : Known (Tree.mk nodes rts) pn.childLast := hc.resolve_left hcl0
        have hck5 : Known t5 pn.childLast :=
          ⟨hck.1, by rw [hl5, hlen4]; have := hck.2; simp only at this; omega⟩
        obtain ⟨t6, a1, a2, a3, a4⟩ := writeNode_map t5 pn.childLast
          (fun node => { node with siblingNext := nodes.length + 1 }) hck5
        exact ⟨t6, by rw [if_pos hcl0, a1], a2, a3, a4⟩
    obtain ⟨t6, hw6, hr6, hl6, hp6⟩ := h6
    have hpk6 : Known t6 p := ⟨hpk.1, by rw [hl6, hl5]; exact hpk4.2⟩
    obtain ⟨t7, hw7, hr7, hl7, hp7⟩ := writeNode_map t6 p
      (fun node => { node with childLast := nodes.length + 1 }) hpk6
    refine ⟨t7, ?_, ?_, ?_, ?_, ?_⟩
    · rw [if_pos hp0, hold4 p hple, hpn, Option.some_bind, hw5, Option.some_bind, e5,
        Option.some_bind]
      simp only []
      rw [hw6, Option.some_bind, hw7, Option.some_bind]
    · rw [hl7, hl6, hl5, hlen4]
    · rw [hr7, hr6, hr5, hroot4, if_neg hp0]
    · have hcne : nodes.length + 1 ≠ pn.childLast := by
        rcases hc with h | h
        · omega
        · have := h.2
          simp only at this
          omega
      rw [hp7, if_neg (Ne.symm hple), hp6, if_neg hcne, hp5, if_neg (Ne.symm hple), e4]
    · intro h nd hnd
      have hk := known_of_ptrNode _ _ _ hnd
      have hne : h ≠ nodes.length + 1 := by
        have := hk.2
        simp only at this
        omega
      rw [hp7, hp6, hp5, hold4 h hne, hnd, hc0]
      by_cases hhp : h = p
      · subst hhp
        rw [hpn] at hnd
        cases hnd
        by_cases hhc : h = pn.childLast <;> simp [hhc]
      · by_cases hhc : h = pn.childLast
        · subst hhc
          simp [hhp]
        · simp [hhc, hhp]

/-! ## Accessors after `appendChild` -/

section Post
variable {T : Type} {t t1 : Tree T} {p : Nat} {v : T}

theorem post_known_old (hpost : AppendPost t p v t1) {h : Nat} (hk : Known t h) : Known t1 h :=
  ⟨hk.1, by rw [hpost.length_eq]; exact Nat.le_succ_of_le hk.2⟩

theorem post_known_new (hpost : AppendPost t p v t1) : Known t1 (t.m_vecNode.length + 1) :=
  ⟨Nat.succ_ne_zero _, by rw [hpost.length_eq]⟩

theorem post_known_iff (hpost : AppendPost t p v t1) (h : Nat) :
    Known t1 h ↔ Known t h ∨ h = t.m_vecNode.length + 1 := by
  unfold Known
  rw [hpost.length_eq]
  omega

theorem post_nodeParent_old (hpost : AppendPost t p v t1) {h : Nat} (hk : Known t h) :
    t1.nodeParent h = t.nodeParent h := by
  obtain ⟨nd, hnd⟩ := ptrNode_isSome t h hk
  unfold Tree.nodeParent
  rw [hpost.old_node h nd hnd, hnd]

theorem post_nodeData_old [Inhabited T] (hpost : AppendPost t p v t1) {h : Nat}
    (hk : Known t h) : t1.nodeData h = t.nodeData h := by
  obtain ⟨nd, hnd⟩ := ptrNode_isSome t h hk
  unfold Tree.nodeData
  rw [hpost.old_node h nd hnd, hnd]

theorem post_nodeSiblingPrevious_old (hpost : AppendPost t p v t1) {h : Nat} (hk : Known t h) :
    t1.nodeSiblingPrevious h = t.nodeSiblingPrevious h := by
  obtain ⟨nd, hnd⟩ := ptrNode_isSome t h hk
  unfold Tree.nodeSiblingPrevious
  rw [hpost.old_node h nd hnd, hnd]

theorem post_nodeSiblingNext_old (hpost : AppendPost t p v t1) {h : Nat} (hk : Known t h) :
    t1.nodeSiblingNext h =
      if h = t.nodeChildLast p then t.m_vecNode.length + 1 else t.nodeSiblingNext h := by
  obtain ⟨nd, hnd⟩ := ptrNode_isSome t h hk
  unfold Tree.nodeSiblingNext
  rw [hpost.old_node h nd hnd, hnd]

theorem post_nodeChildFirst_old (hpost : AppendPost t p v t1) {h : Nat} (hk : Known t h) :
    t1.nodeChildFirst h =
      if h = p ∧ t.nodeChildFirst h = 0 then t.m_vecNode.length + 1 else t.nodeChildFirst h := by
  obtain ⟨nd, hnd⟩ := ptrNode_isSome t h hk
  unfold Tree.nodeChildFirst
  rw [hpost.old_node h nd hnd, hnd]

theorem post_nodeChildLast_old (hpost : AppendPost t p v t1) {h : Nat} (hk : Known t h) :
    t1.nodeChildLast h = if h = p then t.m_vecNode.length + 1 else t.nodeChildLast h := by
  obtain ⟨nd, hnd⟩ := ptrNode_isSome t h hk
  unfold Tree.nodeChildLast
  rw [hpost.old_node h nd hnd, hnd]

theorem post_nodeParent_new (hpost : AppendPost t p v t1) :
    t1.nodeParent (t.m_vecNode.length + 1) = p := by
  unfold Tree.nodeParent
  rw [hpost.new_node]

theorem post_nodeData_new [Inhabited T] (hpost : AppendPost t p v t1) :
    t1.nodeData (t.m_vecNode.length + 1) = v := by
  unfold Tree.nodeData
  rw [hpost.new_node]

theorem post_nodeSiblingPrevious_new (hpost : AppendPost t p v t1) :
    t1.nodeSiblingPrevious (t.m_vecNode.length + 1) = t.nodeChildLast p := by
  unfold Tree.nodeSiblingPrevious
  rw [hpost.new_node]

theorem post_nodeSiblingNext_new (hpost : AppendPost t p v t1) :
    t1.nodeSiblingNext (t.m_vecNode.length + 1) = 0 := by
  unfold Tree.nodeSiblingNext
  rw [hpost.new_node]

theorem post_nodeChildFirst_new (hpost : AppendPost t p v t1) :
    t1.nodeChildFirst (t.m_vecNode.length + 1) = 0 := by
  unfold Tree.nodeChildFirst
  rw [hpost.new_node]

theorem post_nodeChildLast_new (hpost : AppendPost t p v t1) :
    t1.nodeChildLast (t.m_vecNode.length + 1) = 0 := by
  unfold Tree.nodeChildLast
  rw [hpost.new_node]

end Post

/-! ## Accessors on handles the tree never issued -/

theorem nodeParent_unknown {T : Type} (t : Tree T) (h : Nat) (hk : ¬ Known t h) :
    t.nodeParent h = 0 := by
  unfold Tree.nodeParent
  rw [ptrNode_eq_none t h hk]

theorem nodeChildFirst_unknown {T : Type} (t : Tree T) (h : Nat) (hk : ¬ Known t h) :
    t.nodeChildFirst h = 0 := by
  unfold Tree.nodeChildFirst
  rw [ptrNode_eq_none t h hk]

theorem nodeChildLast_unknown {T : Type} (t : Tree T) (h : Nat) (hk : ¬ Known t h) :
    t.nodeChildLast h = 0 := by
  unfold Tree.nodeChildLast
  rw [ptrNode_eq_none t h hk]

theorem nodeSiblingPrevious_unknown {T : Type} (t : Tree T) (h : Nat) (hk : ¬ Known t h) :
    t.nodeSiblingPrevious h = 0 := by
  unfold Tree.nodeSiblingPrevious
  rw [ptrNode_eq_none t h hk]

theorem nodeSiblingNext_unknown {T : Type} (t : Tree T) (h : Nat) (hk : ¬ Known t h) :
    t.nodeSiblingNext h = 0 := by
  unfold Tree.nodeSiblingNext
  rw [ptrNode_eq_none t h hk]

theorem nodeIsRoot_unknown {T : Type} (t : Tree T) (h : Nat) (hk : ¬ Known t h) :
    t.nodeIsRoot h = false := by
  unfold Tree.nodeIsRoot
  rw [ptrNode_eq_none t h hk]

theorem nodeData_unknown {T : Type} [Inhabited T] (t : Tree T) (h : Nat) (hk : ¬ Known t h) :
    t.nodeData h = default := by
  unfold Tree.nodeData
  rw [ptrNode_eq_none t h hk]

theorem not_known_zero {T : Type} (t : Tree T) : ¬ Known t 0 := fun h => h.1 rfl

theorem nodeIsRoot_eq {T : Type} (t : Tree T) (h : Nat) (hk : Known t h) :
    t.nodeIsRoot h = (t.nodeParent h == 0) := by
  obtain ⟨nd, hnd⟩ := ptrNode_isSome t h hk
  unfold Tree.nodeIsRoot Tree.nodeParent
  rw [hnd]

/-! ## The children lists -/

theorem mem_childrenOf {T : Type} (t : Tree T) (p h : Nat) :
    h ∈ childrenOf t p ↔ Known t h ∧ t.nodeParent h = p := by
  unfold childrenOf Known
  rw [List.mem_filter, List.mem_range'_1]
  simp only [beq_iff_eq]
  constructor
  · rintro ⟨⟨h1, h2⟩, h3⟩
    exact ⟨⟨by omega, by omega⟩, h3⟩
  · rintro ⟨⟨h1, h2⟩, h3⟩
    exact ⟨⟨by omega, by omega⟩, h3⟩

theorem nodup_childrenOf {T : Type} (t : Tree T) (p : Nat) : (childrenOf t p).Nodup :=
  List.Nodup.filter _ (List.nodup_range' 1 _)

theorem headD_mem {l : List Nat} (hl : l ≠ []) : l.headD 0 ∈ l := by
  cases l with
  | nil => exact absurd rfl hl
  | cons a rest => simp

theorem getLastD_mem {l : List Nat} (d : Nat) (hl : l ≠ []) : l.getLastD d ∈ l := by
  induction l generalizing d with
  | nil => exact absurd rfl hl
  | cons a rest ih =>
    cases rest with
    | nil => simp
    | cons b rest2 =>
      have := ih a (List.cons_ne_nil _ _)
      simp only [List.getLastD_cons] at this ⊢
      exact List.mem_cons_of_mem _ this

theorem childrenOf_post {T : Type} {t t1 : Tree T} {p : Nat} {v : T}
    (hpost : AppendPost t p v t1) (q : Nat) :
    childrenOf t1 q = childrenOf t q ++ (if p = q then [t.m_vecNode.length + 1] else []) := by
  unfold childrenOf
  rw [hpost.length_eq, List.range'_concat, List.filter_append]
  congr 1
  · apply List.filter_congr
    intro x hx
    rw [List.mem_range'_1] at hx
    rw [post_nodeParent_old hpost ⟨by omega, by omega⟩]
  · have : 1 + 1 * t.m_vecNode.length = t.m_vecNode.length + 1 := by omega
    rw [this]
    simp only [List.filter_cons, List.filter_nil, post_nodeParent_new hpost, beq_iff_eq]

/-! ## Linked sibling lists -/

theorem linked_congr {T : Type} {t t1 : Tree T} (l : List Nat) (prev : Nat)
    (hprev : ∀ a ∈ l, t1.nodeSiblingPrevious a = t.nodeSiblingPrevious a)
    (hnext : ∀ a ∈ l, t1.nodeSiblingNext a = t.nodeSiblingNext a)
    (hl : Linked t prev l) : Linked t1 prev l := by
  induction l generalizing prev with
  | nil => exact True.intro
  | cons a rest ih =>
    obtain ⟨h1, h2, h3⟩ := hl
    refine ⟨?_, ?_, ?_⟩
    · rw [hprev a (List.mem_cons_self _ _), h1]
    · rw [hnext a (List.mem_cons_self _ _), h2]
    · exact ih a (fun b hb => hprev b (List.mem_cons_of_mem _ hb))
        (fun b hb => hnext b (List.mem_cons_of_mem _ hb)) h3

theorem linked_snoc {T : Type} {t t1 : Tree T} (l : List Nat) (prev x : Nat)
    (hnd : l.Nodup)
    (hprev : ∀ a ∈ l, t1.nodeSiblingPrevious a = t.nodeSiblingPrevious a)
    (hnext : ∀ a ∈ l, t1.nodeSiblingNext a =
      if a = l.getLastD prev then x else t.nodeSiblingNext a)
    (hx1 : t1.nodeSiblingPrevious x = l.getLastD prev)
    (hx2 : t1.nodeSiblingNext x = 0)
    (hl : Linked t prev l) : Linked t1 prev (l ++ [x]) := by
  induction l generalizing prev with
  | nil => exact ⟨hx1, hx2, True.intro⟩
  | cons a rest ih =>
    obtain ⟨h1, h2, h3⟩ := hl
    have hnd2 := List.nodup_cons.mp hnd
    refine ⟨?_, ?_, ?_⟩
    · rw [hprev a (List.mem_cons_self _ _), h1]
    · rw [hnext a (List.mem_cons_self _ _)]
      cases rest with
      | nil => simp
      | cons b rest2 =>
        have hmem : (b :: rest2).getLastD a ∈ b :: rest2 :=
          getLastD_mem a (List.cons_ne_nil _ _)
        have hne : a ≠ (a :: b :: rest2).getLastD prev := by
          intro hc
          rw [List.getLastD_cons] at hc
          rw [← hc] at hmem
          exact hnd2.1 hmem
        rw [if_neg hne, h2]
        rfl
    · apply ih a hnd2.2
      · exact fun b hb => hprev b (List.mem_cons_of_mem _ hb)
      · intro b hb
        rw [hnext b (List.mem_cons_of_mem _ hb), List.getLastD_cons]
      · rw [hx1, List.getLastD_cons]
      · exact h3

/-! ## The invariant holds in every tree built by `appendChild` -/

theorem wellFormed_empty {T : Type} : WellFormed (Tree.empty : Tree T) where
  roots_eq := rfl
  parent_lt := fun h hk => absurd hk.2 (by have := hk.1; simp [Tree.empty]; omega)
  childFirst_eq := fun h hk => absurd hk.2 (by have := hk.1; simp [Tree.empty]; omega)
  childLast_eq := fun h hk => absurd hk.2 (by have := hk.1; simp [Tree.empty]; omega)
  linked := fun h hk => absurd hk.2 (by have := hk.1; simp [Tree.empty]; omega)
  root_links := fun h hk => absurd hk.2 (by have := hk.1; simp [Tree.empty]; omega)

theorem childLast_known_or_zero {T : Type} {t : Tree T} (hwf : WellFormed t) (p : Nat) :
    t.nodeChildLast p = 0 ∨ Known t (t.nodeChildLast p) := by
  by_cases hk : Known t p
  · rw [hwf.childLast_eq p hk]
    by_cases hl : childrenOf t p = []
    · left
      rw [hl]
      rfl
    · right
      exact ((mem_childrenOf t p _).mp (getLastD_mem 0 hl)).1
  · left
    exact nodeChildLast_unknown t p hk

theorem childLast_parent {T : Type} {t : Tree T} (hwf : WellFormed t) (p : Nat)
    (hne : t.nodeChildLast p ≠ 0) :
    Known t (t.nodeChildLast p) ∧ t.nodeParent (t.nodeChildLast p) = p := by
  by_cases hk : Known t p
  · have hl : childrenOf t p ≠ [] := by
      intro hl
      apply hne
      rw [hwf.childLast_eq p hk, hl]
      rfl
    have := (mem_childrenOf t p _).mp (getLastD_mem 0 hl)
    rw [← hwf.childLast_eq p hk] at this
    exact this
  · exact absurd (nodeChildLast_unknown t p hk) hne

theorem childFirst_eq_zero_iff {T : Type} {t : Tree T} (hwf : WellFormed t) (p : Nat)
    (hk : Known t p) : t.nodeChildFirst p = 0 ↔ childrenOf t p = [] := by
  rw [hwf.childFirst_eq p hk]
  constructor
  · intro h0
    by_contra hl
    have := ((mem_childrenOf t p _).mp (headD_mem hl)).1
    rw [h0] at this
    exact not_known_zero t this
  · intro hl
    rw [hl]
    rfl

theorem wellFormed_post {T : Type} {t t1 : Tree T} {p : Nat} {v : T}
    (hwf : WellFormed t) (hp : p = 0 ∨ Known t p) (hpost : AppendPost t p v t1) :
    WellFormed t1 := by
  have hple : p ≤ t.m_vecNode.length := by
    rcases hp with h | h
    · omega
    · exact h.2
  have hnew_not : ¬ Known t (t.m_vecNode.length + 1) := fun h => by
    have := h.2
    omega
  constructor
  · -- roots
    rw [hpost.roots_eq, childrenOf_post hpost 0, hwf.roots_eq]
    by_cases hp0 : p = 0 <;> simp [hp0]
  · -- parent_lt
    intro h hk
    rcases (post_known_iff hpost h).mp hk with hk0 | rfl
    · rw [post_nodeParent_old hpost hk0]
      exact hwf.parent_lt h hk0
    · rw [post_nodeParent_new hpost]
      omega
  · -- childFirst
    intro q hk
    rw [childrenOf_post hpost q]
    rcases (post_known_iff hpost q).mp hk with hk0 | rfl
    · rw [post_nodeChildFirst_old hpost hk0]
      by_cases hqp : q = p
      · subst hqp
        rw [if_pos rfl]
        by_cases hcf : t.nodeChildFirst q = 0
        · rw [if_pos ⟨rfl, hcf⟩, (childFirst_eq_zero_iff hwf q hk0).mp hcf]
          rfl
        · have hl : childrenOf t q ≠ [] := fun hl =>
            hcf ((childFirst_eq_zero_iff hwf q hk0).mpr hl)
          rw [if_neg (fun hh => hcf hh.2), hwf.childFirst_eq q hk0]
          cases hc : childrenOf t q with
          | nil => exact absurd hc hl
          | cons a rest => rfl
      · rw [if_neg (fun hh => hqp hh.1), if_neg (Ne.symm hqp), List.append_nil]
        exact hwf.childFirst_eq q hk0
    · rw [post_nodeChildFirst_new hpost, if_neg (by omega), List.append_nil]
      have : childrenOf t (t.m_vecNode.length + 1) = [] := by
        apply List.eq_nil_iff_forall_not_mem.mpr
        intro a ha
        obtain ⟨hka, hpa⟩ := (mem_childrenOf t _ a).mp ha
        have h1 := hwf.parent_lt a hka
        have h2 := hka.2
        omega
      rw [this]
      rfl
  · -- childLast
    intro q hk
    rw [childrenOf_post hpost q]
    rcases (post_known_iff hpost q).mp hk with hk0 | rfl
    · rw [post_nodeChildLast_old hpost hk0]
      by_cases hqp : q = p
      · subst hqp
        rw [if_pos rfl, if_pos rfl, List.getLastD_concat]
      · rw [if_neg hqp, if_neg (Ne.symm hqp), List.append_nil]
        exact hwf.childLast_eq q hk0
    · rw [post_nodeChildLast_new hpost, if_neg (by omega), List.append_nil]
      have : childrenOf t (t.m_vecNode.length + 1) = [] := by
        apply List.eq_nil_iff_forall_not_mem.mpr
        intro a ha
        obtain ⟨hka, hpa⟩ := (mem_childrenOf t _ a).mp ha
        have h1 := hwf.parent_lt a hka
        have h2 := hka.2
        omega
      rw [this]
      rfl
  · -- linked
    intro q hk
    rw [childrenOf_post hpost q]
    rcases (post_known_iff hpost q).mp hk with hk0 | rfl
    · by_cases hqp : p = q
      · subst hqp
        rw [if_pos rfl]
        apply linked_snoc (childrenOf t p) 0 _ (nodup_childrenOf t p)
        · intro a ha
          exact post_nodeSiblingPrevious_old hpost ((mem_childrenOf t p a).mp ha).1
        · intro a ha
          rw [post_nodeSiblingNext_old hpost ((mem_childrenOf t p a).mp ha).1,
            hwf.childLast_eq p hk0]
        · rw [post_nodeSiblingPrevious_new hpost, hwf.childLast_eq p hk0]
        · exact post_nodeSiblingNext_new hpost
        · exact hwf.linked p hk0
      · rw [if_neg hqp, List.append_nil]
        apply linked_congr (childrenOf t q) 0 _ _ (hwf.linked q hk0)
        · intro a ha
          exact post_nodeSiblingPrevious_old hpost ((mem_childrenOf t q a).mp ha).1
        · intro a ha
          obtain ⟨hka, hpa⟩ := (mem_childrenOf t q a).mp ha
          rw [post_nodeSiblingNext_old hpost hka, if_neg]
          intro hc
          have hne : t.nodeChildLast p ≠ 0 := by
            rw [← hc]
            exact hka.1
          have := (childLast_parent hwf p hne).2
          rw [← hc, hpa] at this
          exact hqp this.symm
    · rw [if_neg (by omega), List.append_nil]
      have : childrenOf t (t.m_vecNode.length + 1) = [] := by
        apply List.eq_nil_iff_forall_not_mem.mpr
        intro a ha
        obtain ⟨hka, hpa⟩ := (mem_childrenOf t _ a).mp ha
        have h1 := hwf.parent_lt a hka
        have h2 := hka.2
        omega
      rw [this]
      exact True.intro
  · -- root_links
    intro h hk hpar
    rcases (post_known_iff hpost h).mp hk with hk0 | rfl
    · rw [post_nodeParent_old hpost hk0] at hpar
      rw [post_nodeSiblingPrevious_old hpost hk0, post_nodeSiblingNext_old hpost hk0, if_neg]
      · exact hwf.root_links h hk0 hpar
      · intro hc
        have hne : t.nodeChildLast p ≠ 0 := by
          rw [← hc]
          exact hk0.1
        obtain ⟨hk1, hp1⟩ := childLast_parent hwf p hne
        rw [← hc, hpar] at hp1
        rw [← hp1] at hne
        apply hne
        exact nodeChildLast_unknown t 0 (not_known_zero t)
    · rw [post_nodeParent_new hpost] at hpar
      rw [post_nodeSiblingPrevious_new hpost, post_nodeSiblingNext_new hpost, hpar]
      exact ⟨nodeChildLast_unknown t 0 (not_known_zero t), rfl⟩

theorem appendChild_ok {T : Type} [Inhabited T] {t : Tree T} (hwf : WellFormed t) (p : Nat)
    (v : T) (hp : p = 0 ∨ Known t p) :
    ∃ t1, t.appendChild p v = some (t.m_vecNode.length + 1, t1) ∧ AppendPost t p v t1 :=
  appendChild_spec t p v hp (childLast_known_or_zero hwf p)

theorem builtBy_inv {T : Type} [Inhabited T] {issued : List Nat} {t : Tree T}
    (hb : BuiltBy issued t) : WellFormed t ∧ issued = List.range' 1 t.m_vecNode.length := by
  induction hb with
  | empty => exact ⟨wellFormed_empty, rfl⟩
  | @append issued t t1 p h v _ hp happ ih =>
    obtain ⟨hwf, hiss⟩ := ih
    have hp2 : p = 0 ∨ Known t p := by
      rcases hp with h0 | hm
      · exact Or.inl h0
      · right
        rw [hiss, List.mem_range'_1] at hm
        exact ⟨by omega, by omega⟩
    obtain ⟨t2, happ2, hpost⟩ := appendChild_ok hwf p v hp2
    rw [happ] at happ2
    cases happ2
    refine ⟨wellFormed_post hwf hp2 hpost, ?_⟩
    rw [hpost.length_eq, List.range'_concat, hiss]
    congr 2
    omega

theorem builtBy_wf {T : Type} [Inhabited T] {issued : List Nat} {t : Tree T}
    (hb : BuiltBy issued t) : WellFormed t := (builtBy_inv hb).1

theorem builtBy_mem {T : Type} [Inhabited T] {issued : List Nat} {t : Tree T}
    (hb : BuiltBy issued t) (h : Nat) : h ∈ issued ↔ Known t h := by
  rw [(builtBy_inv hb).2, List.mem_range'_1]
  unfold Known
  omega

theorem builtBy_length {T : Type} [Inhabited T] {issued : List Nat} {t : Tree T}
    (hb : BuiltBy issued t) : issued.length = t.m_vecNode.length := by
  rw [(builtBy_inv hb).2, List.length_range']

theorem builtBy_valid {T : Type} [Inhabited T] {issued : List Nat} {t : Tree T}
    (hb : BuiltBy issued t) {p : Nat} (hp : p = 0 ∨ p ∈ issued) : p = 0 ∨ Known t p :=
  hp.imp id (builtBy_mem hb p).mp

/-! ## Walking a linked sibling list -/

theorem siblingLoop_linked {T : Type} (t : Tree T) (body : Nat → Option (List Nat))
    (g : Nat → List Nat) (l : List Nat) (prev fuel : Nat)
    (hl : Linked t prev l) (hne : ∀ a ∈ l, a ≠ 0) (hbody : ∀ a ∈ l, body a = some (g a))
    (hfuel : l.length < fuel) :
    siblingLoop t body fuel (l.headD 0) = some (l.map g).flatten := by
  induction l generalizing prev fuel with
  | nil =>
    cases fuel with
    | zero => exact absurd hfuel (Nat.lt_irrefl _)
    | succ fuel => simp [siblingLoop]
  | cons a rest ih =>
    cases fuel with
    | zero => exact absurd hfuel (Nat.not_lt_zero _)
    | succ fuel =>
      obtain ⟨_, h2, h3⟩ := hl
      have ha : a ≠ 0 := hne a (List.mem_cons_self _ _)
      have hrec := ih a fuel h3 (fun b hb => hne b (List.mem_cons_of_mem _ hb))
        (fun b hb => hbody b (List.mem_cons_of_mem _ hb))
        (by simp only [List.length_cons] at hfuel; omega)
      simp only [List.headD_cons, siblingLoop, if_neg ha, hbody a (List.mem_cons_self _ _),
        Option.some_bind, h2, hrec, Option.map_some', List.map_cons, List.flatten_cons]

theorem flatten_map_singleton (l : List Nat) : (l.map fun it => [it]).flatten = l := by
  induction l with
  | nil => rfl
  | cons a rest ih => simp [ih]

theorem childrenOf_ne_zero {T : Type} (t : Tree T) (p : Nat) : ∀ a ∈ childrenOf t p, a ≠ 0 :=
  fun a ha => ((mem_childrenOf t p a).mp ha).1.1

theorem length_childrenOf_le {T : Type} (t : Tree T) (p : Nat) :
    (childrenOf t p).length ≤ t.m_vecNode.length := by
  unfold childrenOf
  exact le_trans (List.length_filter_le _ _) (by rw [List.length_range'])

theorem childChain_eq {T : Type} {t : Tree T} (hwf : WellFormed t) (p : Nat) (hk : Known t p)
    (fuel : Nat) (hfuel : t.m_vecNode.length < fuel) :
    childChain t fuel p = some (childrenOf t p) := by
  unfold childChain
  rw [hwf.childFirst_eq p hk,
    siblingLoop_linked t _ (fun it => [it]) (childrenOf t p) 0 fuel (hwf.linked p hk)
      (childrenOf_ne_zero t p) (fun _ _ => rfl)
      (lt_of_le_of_lt (length_childrenOf_le t p) hfuel),
    flatten_map_singleton]

theorem builtBy_sampleTree1 : BuiltBy [1] sampleTree1 :=
  BuiltBy.append (p := 0) (v := 10) BuiltBy.empty (Or.inl rfl)
    (by decide : Tree.empty.appendChild 0 10 = some (1, sampleTree1))

theorem builtBy_sampleTree2 : BuiltBy [1, 2] sampleTree2 :=
  BuiltBy.append (p := 0) (v := 20) builtBy_sampleTree1 (Or.inl rfl)
    (by decide : sampleTree1.appendChild 0 20 = some (2, sampleTree2))

theorem builtBy_sampleTree3 : BuiltBy [1, 2, 3] sampleTree3 :=
  BuiltBy.append (p := 1) (v := 30) builtBy_sampleTree2 (Or.inr (by decide))
    (by decide : sampleTree2.appendChild 1 30 = some (3, sampleTree3))

theorem builtBy_sampleTree4 : BuiltBy [1, 2, 3, 4] sampleTree4 :=
  BuiltBy.append (p := 1) (v := 40) builtBy_sampleTree3 (Or.inr (by decide))
    (by decide : sampleTree3.appendChild 1 40 = some (4, sampleTree4))

theorem builtBy_sampleTree5 : BuiltBy [1, 2, 3, 4, 5] sampleTree5 :=
  BuiltBy.append (p := 3) (v := 50) builtBy_sampleTree4 (Or.inr (by decide))
    (by decide : sampleTree4.appendChild 3 50 = some (5, sampleTree5))

/-! # The claims -/

/-- For an argument that refers outside the arena: in a tree built from the
empty tree by `appendChild` calls with valid parents, a further call
`appendChild(p, v)` with `p == 0` or `p` a handle the tree returned before
returns a handle `h` that is known afterwards, with `nodeParent(h) == p` and
`nodeData(h) == v`. -/
theorem appendChild_parent_and_data {T : Type} [Inhabited T] (issued : List Nat)
    (t : Tree T) (hb : BuiltBy issued t) (p : Nat) (v : T) (hp : p = 0 ∨ p ∈ issued) :
    ∃ h t1, t.appendChild p v = some (h, t1) ∧ Known t1 h ∧
      (t1.ptrNode h).isSome = true ∧ t1.nodeParent h = p ∧ t1.nodeData h = v := by
  obtain ⟨t1, happ, hpost⟩ := appendChild_ok (builtBy_wf hb) p v (builtBy_valid hb hp)
  refine ⟨_, t1, happ, post_known_new hpost, ?_, post_nodeParent_new hpost,
    post_nodeData_new hpost⟩
  rw [hpost.new_node]
  rfl

theorem appendChild_parent_and_data_sample :
    ∃ h t1, sampleTree4.appendChild 3 50 = some (h, t1) ∧ Known t1 h ∧
      (t1.ptrNode h).isSome = true ∧ t1.nodeParent h = 3 ∧ t1.nodeData h = 50 :=
  appendChild_parent_and_data [1, 2, 3, 4] sampleTree4 builtBy_sampleTree4 3 50
    (Or.inr (by decide))

/-- For an arbitrary argument: whenever the reference `data` is still valid when
it is read (it refers outside the arena, or the arena was not moved), the call
returns a known handle `h` with `nodeParent(h) == p` and `nodeData(h)` the value
`data` referred to. -/
theorem appendChildRef_parent_and_data {T : Type} [Inhabited T] (issued : List Nat)
    (t : Tree T) (hb : BuiltBy issued t) (reallocated : Bool) (p : Nat) (data : DataRef T)
    (v : T) (hp : p = 0 ∨ p ∈ issued) (hv : t.readDataRef reallocated data = some v) :
    ∃ h t1, t.appendChildRef reallocated p data = some (h, t1) ∧ Known t1 h ∧
      t1.nodeParent h = p ∧ t1.nodeData h = v := by
  obtain ⟨h, t1, h1, h2, _, h3, h4⟩ := appendChild_parent_and_data issued t hb p v hp
  refine ⟨h, t1, ?_, h2, h3, h4⟩
  unfold Tree.appendChildRef
  rw [hv]
  exact h1

/-- C1 holds for an argument that refers outside the arena, and fails on the code
for one that refers into it.  On the tree made by `appendChild(0, 10)`, whose
arena is full, the call `appendChild(0, tree.nodeData(1))` moves the arena in
`push_back` and then reads `data` through the dangling reference: the behaviour
is undefined, and the new node need not carry the payload `10` that
`nodeData(1)` had.  The same call with a copy of the payload, or without a move
of the arena, returns handle `2` with `nodeParent(2) == 0` and
`nodeData(2) == 10`. -/
theorem C1_appendChild_reads_payload_after_push_back :
    BuiltBy [1] sampleTree1 ∧ sampleTree1.nodeData 1 = 10 ∧
    sampleTree1.readDataRef true (DataRef.ofNodeData 1) = none ∧
    sampleTree1.appendChildRef true 0 (DataRef.ofNodeData 1) = none ∧
    (∃ t1, sampleTree1.appendChildRef true 0 (DataRef.outside 10) = some (2, t1) ∧
      t1.nodeParent 2 = 0 ∧ t1.nodeData 2 = 10) ∧
    (∃ t1, sampleTree1.appendChildRef false 0 (DataRef.ofNodeData 1) = some (2, t1) ∧
      t1.nodeParent 2 = 0 ∧ t1.nodeData 2 = 10) :=
  ⟨builtBy_sampleTree1, by decide, by decide, by decide,
    ⟨⟨[⟨0, 0, 0, 0, 0, 10⟩, ⟨0, 0, 0, 0, 0, 10⟩], [1, 2]⟩, by decide, by decide, by decide⟩,
    ⟨⟨[⟨0, 0, 0, 0, 0, 10⟩, ⟨0, 0, 0, 0, 0, 10⟩], [1, 2]⟩, by decide, by decide, by decide⟩⟩

/-- C2: in a tree built by valid `appendChild` calls and for a known handle `p`,
the call `h = appendChild(p, v)` turns the child chain of `p` (the walk from
`nodeChildFirst(p)` along `nodeSiblingNext` until `0`, which terminates) into
the former chain followed by `h`; `h` is not in the former chain, so it occurs
exactly once and last; `nodeChildLast(p) == h`, `nodeSiblingNext(h) == 0` and
`nodeSiblingPrevious(h)` is the former `nodeChildLast(p)`. -/
theorem C2_appendChild_extends_child_chain {T : Type} [Inhabited T] (issued : List Nat)
    (t : Tree T) (hb : BuiltBy issued t) (p : Nat) (v : T) (hp : p ∈ issued) :
    ∃ h t1 chain, t.appendChild p v = some (h, t1) ∧
      (∀ fuel, t.m_vecNode.length < fuel → childChain t fuel p = some chain) ∧
      (∀ fuel, t1.m_vecNode.length < fuel → childChain t1 fuel p = some (chain ++ [h])) ∧
      h ∉ chain ∧ (chain ++ [h]).count h = 1 ∧ (chain ++ [h]).getLast? = some h ∧
      t1.nodeChildLast p = h ∧ t1.nodeSiblingNext h = 0 ∧
      t1.nodeSiblingPrevious h = t.nodeChildLast p := by
  have hwf := builtBy_wf hb
  have hk : Known t p := (builtBy_mem hb p).mp hp
  obtain ⟨t1, happ, hpost⟩ := appendChild_ok hwf p v (Or.inr hk)
  have hwf1 := wellFormed_post hwf (Or.inr hk) hpost
  have hnot : t.m_vecNode.length + 1 ∉ childrenOf t p := by
    intro hm
    have := ((mem_childrenOf t p _).mp hm).1.2
    omega
  refine ⟨_, t1, childrenOf t p, happ, fun fuel hf => childChain_eq hwf p hk fuel hf, ?_, hnot,
    ?_, ?_, ?_, post_nodeSiblingNext_new hpost, post_nodeSiblingPrevious_new hpost⟩
  · intro fuel hf
    rw [childChain_eq hwf1 p (post_known_old hpost hk) fuel hf, childrenOf_post hpost p,
      if_pos rfl]
  · rw [List.count_append, List.count_eq_zero_of_not_mem hnot]
    simp
  · simp
  · rw [post_nodeChildLast_old hpost hk, if_pos rfl]

theorem C2_appendChild_extends_child_chain_witness :
    ∃ h t1 chain, sampleTree4.appendChild 1 50 = some (h, t1) ∧
      (∀ fuel, sampleTree4.m_vecNode.length < fuel →
        childChain sampleTree4 fuel 1 = some chain) ∧
      (∀ fuel, t1.m_vecNode.length < fuel → childChain t1 fuel 1 = some (chain ++ [h])) ∧
      h ∉ chain ∧ (chain ++ [h]).count h = 1 ∧ (chain ++ [h]).getLast? = some h ∧
      t1.nodeChildLast 1 = h ∧ t1.nodeSiblingNext h = 0 ∧
      t1.nodeSiblingPrevious h = sampleTree4.nodeChildLast 1 :=
  C2_appendChild_extends_child_chain [1, 2, 3, 4] sampleTree4 builtBy_sampleTree4 1 50
    (by decide)

/-- C3: in a tree built by valid `appendChild` calls, `h` is in `roots()` iff
`h` is known with `nodeParent(h) == 0`, iff `nodeIsRoot(h)`; `roots()` has no
duplicates and lists the roots in the order in which they were appended (it is
the sequence of issued handles restricted to the roots); and `appendChild(0, v)`
returns a handle `h` with `roots()` afterwards equal to `roots()` before
followed by `h`. -/
theorem C3_roots_are_the_parentless_nodes {T : Type} [Inhabited T] (issued : List Nat)
    (t : Tree T) (hb : BuiltBy issued t) :
    (∀ h, h ∈ t.roots ↔ (Known t h ∧ t.nodeParent h = 0)) ∧
    (∀ h, (Known t h ∧ t.nodeParent h = 0) ↔ t.nodeIsRoot h = true) ∧
    t.roots.Nodup ∧
    t.roots = issued.filter (fun h => t.nodeIsRoot h) ∧
    ∀ v, ∃ h t1, t.appendChild 0 v = some (h, t1) ∧ t1.roots = t.roots ++ [h] := by
  have hwf := builtBy_wf hb
  have hroots : t.roots = childrenOf t 0 := hwf.roots_eq
  refine ⟨?_, ?_, ?_, ?_, ?_⟩
  · intro h
    rw [hroots]
    exact mem_childrenOf t 0 h
  · intro h
    constructor
    · rintro ⟨hk, hp⟩
      rw [nodeIsRoot_eq t h hk, hp]
      rfl
    · intro hr
      have hk : Known t h := by
        by_contra hk
        rw [nodeIsRoot_unknown t h hk] at hr
        cases hr
      rw [nodeIsRoot_eq t h hk] at hr
      exact ⟨hk, by simpa using hr⟩
  · rw [hroots]
    exact nodup_childrenOf t 0
  · rw [hroots, (builtBy_inv hb).2]
    unfold childrenOf
    apply List.filter_congr
    intro x hx
    rw [List.mem_range'_1] at hx
    rw [nodeIsRoot_eq t x ⟨by omega, by omega⟩]
  · intro v
    obtain ⟨t1, happ, hpost⟩ := appendChild_ok hwf 0 v (Or.inl rfl)
    refine ⟨_, t1, happ, ?_⟩
    unfold Tree.roots
    rw [hpost.roots_eq, if_pos rfl]

theorem C3_roots_are_the_parentless_nodes_witness :
    (∀ h, h ∈ sampleTree4.roots ↔ (Known sampleTree4 h ∧ sampleTree4.nodeParent h = 0)) ∧
    (∀ h, (Known sampleTree4 h ∧ sampleTree4.nodeParent h = 0) ↔
      sampleTree4.nodeIsRoot h = true) ∧
    sampleTree4.roots.Nodup ∧
    sampleTree4.roots = [1, 2, 3, 4].filter (fun h => sampleTree4.nodeIsRoot h) ∧
    ∀ v, ∃ h t1, sampleTree4.appendChild 0 v = some (h, t1) ∧
      t1.roots = sampleTree4.roots ++ [h] :=
  C3_roots_are_the_parentless_nodes [1, 2, 3, 4] sampleTree4 builtBy_sampleTree4

/-- C4: for every tree and every handle `h` the tree never issued (`h == 0` or
`h` greater than the number of nodes), `nodeParent`, `nodeChildFirst`,
`nodeChildLast`, `nodeSiblingPrevious` and `nodeSiblingNext` return `0`,
`nodeIsRoot` returns `false` and `nodeData` returns the default `T`. -/
theorem C4_accessors_on_unknown_handle {T : Type} [Inhabited T] (t : Tree T) (h : Nat)
    (hu : h = 0 ∨ t.m_vecNode.length < h) :
    t.ptrNode h = none ∧
    t.nodeParent h = 0 ∧ t.nodeChildFirst h = 0 ∧ t.nodeChildLast h = 0 ∧
    t.nodeSiblingPrevious h = 0 ∧ t.nodeSiblingNext h = 0 ∧
    t.nodeIsRoot h = false ∧ t.nodeData h = default := by
  have hk : ¬ Known t h := by
    rintro ⟨h1, h2⟩
    rcases hu with h0 | hlt
    · exact h1 h0
    · omega
  exact ⟨ptrNode_eq_none t h hk, nodeParent_unknown t h hk, nodeChildFirst_unknown t h hk,
    nodeChildLast_unknown t h hk, nodeSiblingPrevious_unknown t h hk,
    nodeSiblingNext_unknown t h hk, nodeIsRoot_unknown t h hk, nodeData_unknown t h hk⟩

theorem C4_accessors_on_unknown_handle_witness :
    sampleTree4.ptrNode 5 = none ∧
    sampleTree4.nodeParent 5 = 0 ∧ sampleTree4.nodeChildFirst 5 = 0 ∧
    sampleTree4.nodeChildLast 5 = 0 ∧
    sampleTree4.nodeSiblingPrevious 5 = 0 ∧ sampleTree4.nodeSiblingNext 5 = 0 ∧
    sampleTree4.nodeIsRoot 5 = false ∧ sampleTree4.nodeData 5 = default :=
  C4_accessors_on_unknown_handle sampleTree4 5 (Or.inr (by decide))

/-- C5: `appendChild` leaves every existing handle in place.  In a tree built
by valid `appendChild` calls, for a known handle `h` and a valid parent `p`,
after `appendChild(p, v)` the handle `h` is still known with the same
`nodeData`, `nodeParent` and `nodeSiblingPrevious`; `nodeChildFirst(h)` and
`nodeChildLast(h)` are unchanged unless `h == p`; `nodeSiblingNext(h)` is
unchanged unless `h` was the last child of `p`; the roots already in `roots()`
keep their positions (`roots()` only grows at the end). -/
theorem C5_appendChild_keeps_existing_handles {T : Type} [Inhabited T] (issued : List Nat)
    (t : Tree T) (hb : BuiltBy issued t) (h p : Nat) (v : T) (hh : h ∈ issued)
    (hp : p = 0 ∨ p ∈ issued) :
    ∃ h1 t1, t.appendChild p v = some (h1, t1) ∧ h1 ≠ h ∧ Known t1 h ∧
      t1.nodeData h = t.nodeData h ∧ t1.nodeParent h = t.nodeParent h ∧
      t1.nodeSiblingPrevious h = t.nodeSiblingPrevious h ∧
      (h ≠ p → t1.nodeChildFirst h = t.nodeChildFirst h ∧
        t1.nodeChildLast h = t.nodeChildLast h) ∧
      (h ≠ t.nodeChildLast p → t1.nodeSiblingNext h = t.nodeSiblingNext h) ∧
      (∃ extra, t1.roots = t.roots ++ extra) ∧
      (∀ (i r : Nat), t.roots[i]? = some r → t1.roots[i]? = some r) := by
  have hwf := builtBy_wf hb
  have hk : Known t h := (builtBy_mem hb h).mp hh
  obtain ⟨t1, happ, hpost⟩ := appendChild_ok hwf p v (builtBy_valid hb hp)
  have hroots : ∃ extra, t1.roots = t.roots ++ extra := by
    unfold Tree.roots
    rw [hpost.roots_eq]
    by_cases hp0 : p = 0
    · exact ⟨_, by rw [if_pos hp0]⟩
    · exact ⟨[], by rw [if_neg hp0, List.append_nil]⟩
  refine ⟨_, t1, happ, ?_, post_known_old hpost hk, post_nodeData_old hpost hk,
    post_nodeParent_old hpost hk, post_nodeSiblingPrevious_old hpost hk, ?_, ?_, hroots, ?_⟩
  · have := hk.2
    omega
  · intro hne
    rw [post_nodeChildFirst_old hpost hk, post_nodeChildLast_old hpost hk, if_neg hne,
      if_neg (fun hc => hne hc.1)]
    exact ⟨rfl, rfl⟩
  · intro hne
    rw [post_nodeSiblingNext_old hpost hk, if_neg hne]
  · intro i r hi
    obtain ⟨extra, he⟩ := hroots
    have hlt : i < t.roots.length := by
      by_contra hge
      rw [List.getElem?_eq_none (by omega)] at hi
      cases hi
    rw [he, List.getElem?_append_left hlt, hi]

theorem C5_appendChild_keeps_existing_handles_witness :
    ∃ h1 t1, sampleTree4.appendChild 1 50 = some (h1, t1) ∧ h1 ≠ 3 ∧ Known t1 3 ∧
      t1.nodeData 3 = sampleTree4.nodeData 3 ∧ t1.nodeParent 3 = sampleTree4.nodeParent 3 ∧
      t1.nodeSiblingPrevious 3 = sampleTree4.nodeSiblingPrevious 3 ∧
      (3 ≠ 1 → t1.nodeChildFirst 3 = sampleTree4.nodeChildFirst 3 ∧
        t1.nodeChildLast 3 = sampleTree4.nodeChildLast 3) ∧
      (3 ≠ sampleTree4.nodeChildLast 1 →
        t1.nodeSiblingNext 3 = sampleTree4.nodeSiblingNext 3) ∧
      (∃ extra, t1.roots = sampleTree4.roots ++ extra) ∧
      (∀ (i r : Nat), sampleTree4.roots[i]? = some r → t1.roots[i]? = some r) :=
  C5_appendChild_keeps_existing_handles [1, 2, 3, 4] sampleTree4 builtBy_sampleTree4 3 1 50
    (by decide) (Or.inr (by decide))

theorem reachedBy_builtBy {T : Type} [Inhabited T] {issued : List Nat} {t : Tree T}
    (hr : ReachedBy issued t) : BuiltBy issued t := by
  induction hr with
  | empty => exact BuiltBy.empty
  | @append issued t t1 p h v _ hp happ ih =>
    refine BuiltBy.append ih ?_ happ
    exact hp.imp id (builtBy_mem ih p).mpr
  | clear _ _ => exact BuiltBy.empty

/-- C6, as stated, fails: `appendChild(0, 10)`, `clear()`, `appendChild(0, 20)` on
one tree returns the handle `1` twice, so the second handle is not greater than
the first. -/
theorem C6_counterexample_handle_reissued_after_clear :
    ∃ h1 t1 h2 t2, (Tree.empty : Tree Nat).appendChild 0 10 = some (h1, t1) ∧
      t1.clear.appendChild 0 20 = some (h2, t2) ∧ h1 = 1 ∧ h2 = 1 ∧ ¬ h1 < h2 :=
  ⟨1, sampleTree1, 1, ⟨[⟨0, 0, 0, 0, 0, 20⟩], [1]⟩, by decide, by decide, rfl, rfl, by decide⟩

/-- C6, amended: over any sequence of `appendChild` calls with valid parents and
`clear` calls on one tree, a further valid `appendChild` returns a non-zero
handle that is strictly greater than every handle the tree returned since its
most recent `clear` (it is their number plus one), so no handle is issued twice
between two `clear` calls; `clear` empties the tree, after which handles are
issued from `1` again. -/
theorem C6_handles_increase_between_clears {T : Type} [Inhabited T] (issued : List Nat)
    (t : Tree T) (hr : ReachedBy issued t) (p : Nat) (v : T) (hp : p = 0 ∨ Known t p) :
    (∃ h t1, t.appendChild p v = some (h, t1) ∧ h ≠ 0 ∧ (∀ h0 ∈ issued, h0 < h) ∧
      h ∉ issued ∧ h = issued.length + 1) ∧
    (∃ h t1, t.clear.appendChild 0 v = some (h, t1) ∧ h = 1) := by
  have hb := reachedBy_builtBy hr
  obtain ⟨t1, happ, _⟩ := appendChild_ok (builtBy_wf hb) p v hp
  have hlt : ∀ h0 ∈ issued, h0 < t.m_vecNode.length + 1 := by
    intro h0 h0m
    have := ((builtBy_mem hb h0).mp h0m).2
    omega
  refine ⟨⟨_, t1, happ, Nat.succ_ne_zero _, hlt, ?_, by rw [builtBy_length hb]⟩, ?_⟩
  · intro hm
    exact Nat.lt_irrefl _ (hlt _ hm)
  · obtain ⟨t2, happ2, _⟩ :=
      appendChild_ok (wellFormed_empty : WellFormed (Tree.empty : Tree T)) 0 v (Or.inl rfl)
    exact ⟨_, t2, happ2, rfl⟩

theorem C6_handles_increase_between_clears_witness :
    (∃ h t1, sampleTree2.appendChild 1 30 = some (h, t1) ∧ h ≠ 0 ∧
      (∀ h0 ∈ [1, 2], h0 < h) ∧ h ∉ [1, 2] ∧ h = [1, 2].length + 1) ∧
    (∃ h t1, sampleTree2.clear.appendChild 0 30 = some (h, t1) ∧ h = 1) :=
  C6_handles_increase_between_clears [1, 2] sampleTree2
    (ReachedBy.append (p := 0) (v := 20)
      (ReachedBy.append (p := 0) (v := 10) (ReachedBy.clear ReachedBy.empty) (Or.inl rfl)
        (by decide : (Tree.empty : Tree Nat).clear.appendChild 0 10 = some (1, sampleTree1)))
      (Or.inl rfl) (by decide : sampleTree1.appendChild 0 20 = some (2, sampleTree2)))
    1 30 (Or.inr (by decide))

theorem linked_adjacent {T : Type} {t : Tree T} (l : List Nat) (prev : Nat)
    (hl : Linked t prev l) (i a b : Nat) (ha : l[i]? = some a) (hb : l[i + 1]? = some b) :
    t.nodeSiblingPrevious b = a ∧ t.nodeSiblingNext a = b := by
  induction l generalizing prev i with
  | nil => simp at ha
  | cons x rest ih =>
    obtain ⟨_, h2, h3⟩ := hl
    cases i with
    | zero =>
      simp only [List.getElem?_cons_zero, Option.some.injEq] at ha
      simp only [List.getElem?_cons_succ] at hb
      subst ha
      cases rest with
      | nil => simp at hb
      | cons y rest2 =>
        simp only [List.getElem?_cons_zero, Option.some.injEq] at hb
        subst hb
        exact ⟨h3.1, h2⟩
    | succ j =>
      simp only [List.getElem?_cons_succ] at ha hb
      exact ih x h3 j ha hb

theorem linked_head {T : Type} {t : Tree T} (l : List Nat) (prev : Nat)
    (hl : Linked t prev l) (a : Nat) (ha : l.head? = some a) :
    t.nodeSiblingPrevious a = prev := by
  cases l with
  | nil => simp at ha
  | cons x rest =>
    simp only [List.head?_cons, Option.some.injEq] at ha
    subst ha
    exact hl.1

theorem linked_last {T : Type} {t : Tree T} (l : List Nat) (prev : Nat)
    (hl : Linked t prev l) (a : Nat) (ha : l.getLast? = some a) :
    t.nodeSiblingNext a = 0 := by
  induction l generalizing prev with
  | nil => simp at ha
  | cons x rest ih =>
    obtain ⟨_, h2, h3⟩ := hl
    cases rest with
    | nil =>
      simp only [List.getLast?_singleton, Option.some.injEq] at ha
      subst ha
      exact h2
    | cons y rest2 =>
      rw [List.getLast?_cons_cons] at ha
      exact ih x h3 ha

/-- C9: in a tree built by valid `appendChild` calls the sibling links under
each known node `p` form a doubly-linked list: the walk from
`nodeChildFirst(p)` along `nodeSiblingNext` terminates at `0`; the last node it
reaches is `nodeChildLast(p)` and has `nodeSiblingNext == 0`;
`nodeSiblingPrevious` of the first child is `0`, and of every later child it is
the child visited just before it; `nodeChildFirst(p) == 0` iff
`nodeChildLast(p) == 0`. -/
theorem C9_sibling_links_form_a_list {T : Type} [Inhabited T] (issued : List Nat)
    (t : Tree T) (hb : BuiltBy issued t) (p : Nat) (hp : p ∈ issued) :
    ∃ chain, (∀ fuel, t.m_vecNode.length < fuel → childChain t fuel p = some chain) ∧
      chain.getLastD 0 = t.nodeChildLast p ∧
      chain.headD 0 = t.nodeChildFirst p ∧
      (∀ a, chain.getLast? = some a → t.nodeSiblingNext a = 0) ∧
      (∀ a, chain.head? = some a → t.nodeSiblingPrevious a = 0) ∧
      (∀ (i a b : Nat), chain[i]? = some a → chain[i + 1]? = some b →
        t.nodeSiblingPrevious b = a ∧ t.nodeSiblingNext a = b) ∧
      (t.nodeChildFirst p = 0 ↔ t.nodeChildLast p = 0) := by
  have hwf := builtBy_wf hb
  have hk : Known t p := (builtBy_mem hb p).mp hp
  have hl := hwf.linked p hk
  refine ⟨childrenOf t p, fun fuel hf => childChain_eq hwf p hk fuel hf,
    (hwf.childLast_eq p hk).symm, (hwf.childFirst_eq p hk).symm,
    fun a ha => linked_last _ 0 hl a ha, fun a ha => linked_head _ 0 hl a ha,
    fun i a b ha hb => linked_adjacent _ 0 hl i a b ha hb, ?_⟩
  rw [childFirst_eq_zero_iff hwf p hk, hwf.childLast_eq p hk]
  constructor
  · intro h
    rw [h]
    rfl
  · intro h0
    by_contra hne
    have := ((mem_childrenOf t p _).mp (getLastD_mem 0 hne)).1
    rw [h0] at this
    exact not_known_zero t this

theorem C9_sibling_links_form_a_list_witness :
    ∃ chain, (∀ fuel, sampleTree4.m_vecNode.length < fuel →
        childChain sampleTree4 fuel 1 = some chain) ∧
      chain.getLastD 0 = sampleTree4.nodeChildLast 1 ∧
      chain.headD 0 = sampleTree4.nodeChildFirst 1 ∧
      (∀ a, chain.getLast? = some a → sampleTree4.nodeSiblingNext a = 0) ∧
      (∀ a, chain.head? = some a → sampleTree4.nodeSiblingPrevious a = 0) ∧
      (∀ (i a b : Nat), chain[i]? = some a → chain[i + 1]? = some b →
        sampleTree4.nodeSiblingPrevious b = a ∧ sampleTree4.nodeSiblingNext a = b) ∧
      (sampleTree4.nodeChildFirst 1 = 0 ↔ sampleTree4.nodeChildLast 1 = 0) :=
  C9_sibling_links_form_a_list [1, 2, 3, 4] sampleTree4 builtBy_sampleTree4 1 (by decide)

/-- C10: in a tree built by valid `appendChild` calls, for every known node `h`
with `nodeParent(h) != 0` the parent is a known handle and its child chain
(from `nodeChildFirst` along `nodeSiblingNext`) contains `h` exactly once;
conversely every node in the child chain of a known `p` has parent `p`. -/
theorem C10_parent_chain_contains_child_once {T : Type} [Inhabited T] (issued : List Nat)
    (t : Tree T) (hb : BuiltBy issued t) :
    (∀ h, h ∈ issued → t.nodeParent h ≠ 0 →
      t.nodeParent h ∈ issued ∧ Known t (t.nodeParent h) ∧
      ∃ chain, (∀ fuel, t.m_vecNode.length < fuel →
          childChain t fuel (t.nodeParent h) = some chain) ∧ chain.count h = 1) ∧
    (∀ p, p ∈ issued → ∃ chain, (∀ fuel, t.m_vecNode.length < fuel →
        childChain t fuel p = some chain) ∧ ∀ c ∈ chain, t.nodeParent c = p) := by
  have hwf := builtBy_wf hb
  constructor
  · intro h hh hne
    have hk : Known t h := (builtBy_mem hb h).mp hh
    have hlt := hwf.parent_lt h hk
    have hkp : Known t (t.nodeParent h) := ⟨hne, by have := hk.2; omega⟩
    refine ⟨(builtBy_mem hb _).mpr hkp, hkp, childrenOf t (t.nodeParent h),
      fun fuel hf => childChain_eq hwf _ hkp fuel hf, ?_⟩
    exact List.count_eq_one_of_mem (nodup_childrenOf t _) ((mem_childrenOf t _ h).mpr ⟨hk, rfl⟩)
  · intro p hp
    have hk : Known t p := (builtBy_mem hb p).mp hp
    exact ⟨childrenOf t p, fun fuel hf => childChain_eq hwf p hk fuel hf,
      fun c hc => ((mem_childrenOf t p c).mp hc).2⟩

theorem C10_parent_chain_contains_child_once_witness :
    (∀ h, h ∈ [1, 2, 3, 4] → sampleTree4.nodeParent h ≠ 0 →
      sampleTree4.nodeParent h ∈ [1, 2, 3, 4] ∧ Known sampleTree4 (sampleTree4.nodeParent h) ∧
      ∃ chain, (∀ fuel, sampleTree4.m_vecNode.length < fuel →
          childChain sampleTree4 fuel (sampleTree4.nodeParent h) = some chain) ∧
        chain.count h = 1) ∧
    (∀ p, p ∈ [1, 2, 3, 4] → ∃ chain, (∀ fuel, sampleTree4.m_vecNode.length < fuel →
        childChain sampleTree4 fuel p = some chain) ∧
      ∀ c ∈ chain, sampleTree4.nodeParent c = p) :=
  C10_parent_chain_contains_child_once [1, 2, 3, 4] sampleTree4 builtBy_sampleTree4

/-! ## The traversal -/

theorem deepForeachTreeNodeFrom_aux {T : Type} {t : Tree T} (hwf : WellFormed t) (d : Nat) :
    ∀ h, Known t h → t.m_vecNode.length - h < d →
      ∀ fuel, t.m_vecNode.length + (t.m_vecNode.length - h) < fuel →
        deepForeachTreeNodeFrom t fuel h =
          some (h :: ((childrenOf t h).map (preorder t)).flatten) := by
  induction d with
  | zero => intro h _ hd; exact absurd hd (Nat.not_lt_zero _)
  | succ d ih =>
    intro h hk hd fuel hfuel
    cases fuel with
    | zero => exact absurd hfuel (Nat.not_lt_zero _)
    | succ fuel =>
      have hkid : ∀ k ∈ childrenOf t h,
          deepForeachTreeNodeFrom t fuel k = some (preorder t k) := by
        intro k hkm
        obtain ⟨hkk, hpar⟩ := (mem_childrenOf t h k).mp hkm
        have hlt := hwf.parent_lt k hkk
        rw [hpar] at hlt
        have hk2 := hkk.2
        have e1 := ih k hkk (by omega) fuel (by omega)
        have e2 := ih k hkk (by omega) (2 * t.m_vecNode.length + 1) (by omega)
        rw [e1]
        unfold preorder
        rw [e2]
        rfl
      have hloop := siblingLoop_linked t (deepForeachTreeNodeFrom t fuel) (preorder t)
        (childrenOf t h) 0 (fuel + 1) (hwf.linked h hk) (childrenOf_ne_zero t h) hkid
        (by have := length_childrenOf_le t h; omega)
      rw [deepForeachTreeNodeFrom, hwf.childFirst_eq h hk, hloop]
      rfl

theorem deepForeachTreeNodeFrom_eq {T : Type} {t : Tree T} (hwf : WellFormed t) (h : Nat)
    (hk : Known t h) (fuel : Nat) (hfuel : 2 * t.m_vecNode.length ≤ fuel) :
    deepForeachTreeNodeFrom t fuel h =
      some (h :: ((childrenOf t h).map (preorder t)).flatten) := by
  have h1 := hk.1
  have h2 := hk.2
  exact deepForeachTreeNodeFrom_aux hwf (t.m_vecNode.length - h + 1) h hk (by omega) fuel
    (by omega)

theorem preorder_eq {T : Type} {t : Tree T} (hwf : WellFormed t) (h : Nat) (hk : Known t h) :
    preorder t h = h :: ((childrenOf t h).map (preorder t)).flatten := by
  have := deepForeachTreeNodeFrom_eq hwf h hk (2 * t.m_vecNode.length + 1) (by omega)
  unfold preorder
  rw [this]
  rfl

theorem deepForeachTreeNodeFrom_preorder {T : Type} {t : Tree T} (hwf : WellFormed t) (h : Nat)
    (hk : Known t h) (fuel : Nat) (hfuel : 2 * t.m_vecNode.length ≤ fuel) :
    deepForeachTreeNodeFrom t fuel h = some (preorder t h) := by
  rw [deepForeachTreeNodeFrom_eq hwf h hk fuel hfuel, preorder_eq hwf h hk]

theorem mapM_option_eq {f : Nat → Option (List Nat)} {g : Nat → List Nat} (l : List Nat)
    (h : ∀ a ∈ l, f a = some (g a)) : l.mapM f = some (l.map g) := by
  induction l with
  | nil => rfl
  | cons a rest ih =>
    rw [List.mapM_cons, h a (List.mem_cons_self _ _),
      ih (fun b hb => h b (List.mem_cons_of_mem _ hb))]
    rfl

theorem deepForeachTreeNode_eq {T : Type} {t : Tree T} (hwf : WellFormed t) (fuel : Nat)
    (hfuel : 2 * t.m_vecNode.length ≤ fuel) :
    deepForeachTreeNode t fuel = some ((t.roots.map (preorder t)).flatten) := by
  unfold deepForeachTreeNode
  rw [mapM_option_eq (g := preorder t) t.roots]
  · rfl
  · intro r hr
    have : r ∈ childrenOf t 0 := by
      rw [← hwf.roots_eq]
      exact hr
    exact deepForeachTreeNodeFrom_preorder hwf r ((mem_childrenOf t 0 r).mp this).1 fuel hfuel

theorem childrenOf_beyond {T : Type} {t : Tree T} (hwf : WellFormed t) (q : Nat)
    (hq : t.m_vecNode.length ≤ q) : childrenOf t q = [] := by
  apply List.eq_nil_iff_forall_not_mem.mpr
  intro a ha
  obtain ⟨hka, hpa⟩ := (mem_childrenOf t _ a).mp ha
  have h1 := hwf.parent_lt a hka
  have h2 := hka.2
  omega

theorem count_flatten_map_post (f f1 : Nat → List Nat) (c : Nat → Nat) (a : Nat)
    (l : List Nat) (h : ∀ x ∈ l, (f1 x).count a = (f x).count a + c x) :
    ((l.map f1).flatten).count a = ((l.map f).flatten).count a + (l.map c).sum := by
  induction l with
  | nil => rfl
  | cons x rest ih =>
    simp only [List.map_cons, List.flatten_cons, List.count_append, List.sum_cons]
    rw [h x (List.mem_cons_self _ _), ih (fun y hy => h y (List.mem_cons_of_mem _ hy))]
    omega

theorem count_flatten_map (f : Nat → List Nat) (a : Nat) (l : List Nat) :
    ((l.map f).flatten).count a = (l.map fun x => (f x).count a).sum := by
  induction l with
  | nil => rfl
  | cons x rest ih =>
    simp only [List.map_cons, List.flatten_cons, List.count_append, List.sum_cons, ih]

/-- How the visit sequence below a node changes when `appendChild(p, v)` adds
the node `n + 1`: the new node is visited once more for every visit of `p`. -/
theorem count_preorder_post {T : Type} {t t1 : Tree T} {p : Nat} {v : T}
    (hwf : WellFormed t) (hp : p = 0 ∨ Known t p) (hpost : AppendPost t p v t1) (a : Nat)
    (d : Nat) : ∀ x, Known t x → t.m_vecNode.length - x < d →
      (preorder t1 x).count a = (preorder t x).count a +
        if a = t.m_vecNode.length + 1 then (preorder t x).count p else 0 := by
  have hwf1 := wellFormed_post hwf hp hpost
  have hnew : preorder t1 (t.m_vecNode.length + 1) = [t.m_vecNode.length + 1] := by
    rw [preorder_eq hwf1 _ (post_known_new hpost),
      childrenOf_beyond hwf1 _ (by rw [hpost.length_eq])]
    rfl
  induction d with
  | zero => intro x _ hd; exact absurd hd (Nat.not_lt_zero _)
  | succ d ih =>
    intro x hk hd
    have hx2 := hk.2
    have hkids : ∀ k ∈ childrenOf t x, (preorder t1 k).count a = (preorder t k).count a +
        if a = t.m_vecNode.length + 1 then (preorder t k).count p else 0 := by
      intro k hkm
      obtain ⟨hkk, hpar⟩ := (mem_childrenOf t x k).mp hkm
      have hlt := hwf.parent_lt k hkk
      rw [hpar] at hlt
      have hk2 := hkk.2
      exact ih k hkk (by omega)
    have hsum := count_flatten_map_post (preorder t) (preorder t1)
      (fun k => if a = t.m_vecNode.length + 1 then (preorder t k).count p else 0) a
      (childrenOf t x) hkids
    have hsum2 : ((childrenOf t x).map fun k =>
        if a = t.m_vecNode.length + 1 then (preorder t k).count p else 0).sum =
        if a = t.m_vecNode.length + 1 then
          (((childrenOf t x).map (preorder t)).flatten).count p else 0 := by
      by_cases ha : a = t.m_vecNode.length + 1
      · simp only [if_pos ha]
        rw [count_flatten_map]
      · simp only [if_neg ha]
        simp
    rw [hsum2] at hsum
    rw [preorder_eq hwf1 x (post_known_old hpost hk), preorder_eq hwf x hk,
      childrenOf_post hpost x]
    simp only [List.count_cons, List.map_append, List.flatten_append, List.count_append]
    rw [hsum]
    by_cases hpx : p = x
    · subst hpx
      simp only [if_true, List.map_cons, List.map_nil, List.flatten_cons, List.flatten_nil,
        List.append_nil, hnew, List.count_cons, List.count_nil, beq_self_eq_true]
      by_cases ha : a = t.m_vecNode.length + 1
      · subst ha
        simp only [if_true, beq_self_eq_true]
        omega
      · have ha2 : (t.m_vecNode.length + 1 == a) = false := by
          simpa using (Ne.symm ha)
        simp only [if_neg ha, ha2]
        simp
    · have hxp : (x == p) = false := by simpa using (Ne.symm hpx)
      simp only [if_neg hpx, List.map_nil, List.flatten_nil, List.count_nil, hxp]
      by_cases ha : a = t.m_vecNode.length + 1
      · simp only [if_pos ha]
        simp
        omega
      · simp only [if_neg ha]
        simp

/-- In a tree built by `appendChild`, the visit sequence of the whole traversal
is a permutation of the issued handles. -/
theorem preorder_roots_perm {T : Type} [Inhabited T] {issued : List Nat} {t : Tree T}
    (hb : BuiltBy issued t) : ((t.roots.map (preorder t)).flatten).Perm issued := by
  induction hb with
  | empty => exact List.Perm.refl _
  | @append issued t t1 p h v hb0 hp happ ih =>
    have hwf := builtBy_wf hb0
    have hp2 := builtBy_valid hb0 hp
    obtain ⟨t2, happ2, hpost⟩ := appendChild_ok hwf p v hp2
    rw [happ] at happ2
    cases happ2
    have hnew : preorder t1 (t.m_vecNode.length + 1) = [t.m_vecNode.length + 1] := by
      have hwf1 := wellFormed_post hwf hp2 hpost
      rw [preorder_eq hwf1 _ (post_known_new hpost),
        childrenOf_beyond hwf1 _ (by rw [hpost.length_eq])]
      rfl
    rw [List.perm_iff_count]
    intro a
    have hroots : t1.roots = t.roots ++ (if p = 0 then [t.m_vecNode.length + 1] else []) := by
      unfold Tree.roots
      rw [hpost.roots_eq]
      by_cases hp0 : p = 0 <;> simp [hp0]
    have hkr : ∀ r ∈ t.roots, (preorder t1 r).count a = (preorder t r).count a +
        if a = t.m_vecNode.length + 1 then (preorder t r).count p else 0 := by
      intro r hr
      have hrk : Known t r := by
        have : r ∈ childrenOf t 0 := by
          rw [← hwf.roots_eq]
          exact hr
        exact ((mem_childrenOf t 0 r).mp this).1
      exact count_preorder_post hwf hp2 hpost a (t.m_vecNode.length - r + 1) r hrk (by omega)
    have hsum := count_flatten_map_post (preorder t) (preorder t1)
      (fun k => if a = t.m_vecNode.length + 1 then (preorder t k).count p else 0) a
      t.roots hkr
    have hsum2 : (t.roots.map fun k =>
        if a = t.m_vecNode.length + 1 then (preorder t k).count p else 0).sum =
        if a = t.m_vecNode.length + 1 then ((t.roots.map (preorder t)).flatten).count p
        else 0 := by
      by_cases ha : a = t.m_vecNode.length + 1
      · simp only [if_pos ha]
        rw [count_flatten_map]
      · simp only [if_neg ha]
        simp
    rw [hsum2, List.perm_iff_count.mp ih p] at hsum
    have hcp : issued.count p = if p = 0 then 0 else 1 := by
      have hnd : issued.Nodup := by
        rw [(builtBy_inv hb0).2]
        exact List.nodup_range' 1 _
      rcases hp with h0 | hm
      · rw [if_pos h0]
        apply List.count_eq_zero_of_not_mem
        intro hm
        exact ((builtBy_mem hb0 p).mp hm).1 h0
      · rw [if_neg ((builtBy_mem hb0 p).mp hm).1]
        exact List.count_eq_one_of_mem hnd hm
    rw [hroots, List.map_append, List.flatten_append, List.count_append, hsum,
      List.perm_iff_count.mp ih a, hcp, List.count_append]
    by_cases hp0 : p = 0
    · simp only [if_pos hp0, List.map_cons, List.map_nil, List.flatten_cons, List.flatten_nil,
        List.append_nil, hnew]
      by_cases ha : a = t.m_vecNode.length + 1 <;> simp [ha]
    · simp only [if_neg hp0, List.map_nil, List.flatten_nil, List.count_nil]
      by_cases ha : a = t.m_vecNode.length + 1 <;> simp [ha]

/-- C7: the traversal `deepForeachTreeNode(tree, func)` of a tree built from the
empty tree by `N` valid `appendChild` calls terminates (any fuel from `2 * N`
on yields the same visit sequence) and calls `func` exactly `N` times, once for
each issued handle and for no other handle: the visit sequence is a
permutation of the issued handles. -/
theorem C7_traversal_visits_each_node_once {T : Type} [Inhabited T] (issued : List Nat)
    (t : Tree T) (hb : BuiltBy issued t) :
    ∃ visits, (∀ fuel, 2 * issued.length ≤ fuel → deepForeachTreeNode t fuel = some visits) ∧
      visits.length = issued.length ∧ visits.Perm issued ∧ visits.Nodup ∧
      (∀ h, visits.count h = if h ∈ issued then 1 else 0) := by
  have hwf := builtBy_wf hb
  have hperm := preorder_roots_perm hb
  have hnd : issued.Nodup := by
    rw [(builtBy_inv hb).2]
    exact List.nodup_range' 1 _
  refine ⟨_, ?_, hperm.length_eq, hperm, hperm.nodup_iff.mpr hnd, ?_⟩
  · intro fuel hf
    rw [builtBy_length hb] at hf
    exact deepForeachTreeNode_eq hwf fuel hf
  · intro h
    rw [List.perm_iff_count.mp hperm h]
    by_cases hm : h ∈ issued
    · rw [if_pos hm]
      exact List.count_eq_one_of_mem hnd hm
    · rw [if_neg hm]
      exact List.count_eq_zero_of_not_mem hm

theorem C7_traversal_visits_each_node_once_witness :
    ∃ visits, (∀ fuel, 2 * [1, 2, 3, 4, 5].length ≤ fuel →
        deepForeachTreeNode sampleTree5 fuel = some visits) ∧
      visits.length = [1, 2, 3, 4, 5].length ∧ visits.Perm [1, 2, 3, 4, 5] ∧ visits.Nodup ∧
      (∀ h, visits.count h = if h ∈ [1, 2, 3, 4, 5] then 1 else 0) :=
  C7_traversal_visits_each_node_once [1, 2, 3, 4, 5] sampleTree5 builtBy_sampleTree5

/-! ## The order of the visits -/

theorem visitedBefore_of_split (A B : List Nat) (a b : Nat) (hnd : (A ++ B).Nodup)
    (ha : a ∈ A) (hb : b ∈ B) : VisitedBefore (A ++ B) a b := by
  refine ⟨List.mem_append_left _ ha, List.mem_append_right _ hb, ?_⟩
  have hbA : b ∉ A := fun hbA => (List.disjoint_of_nodup_append hnd) hbA hb
  rw [List.indexOf_append_of_mem ha, List.indexOf_append_of_not_mem hbA]
  have := List.indexOf_lt_length.mpr ha
  omega

theorem split_of_getElem? (l : List Nat) (i j a b : Nat) (hij : i < j)
    (ha : l[i]? = some a) (hb : l[j]? = some b) : ∃ L1 L2, l = L1 ++ a :: L2 ∧ b ∈ L2 := by
  induction l generalizing i j with
  | nil => simp at ha
  | cons x rest ih =>
    cases i with
    | zero =>
      simp only [List.getElem?_cons_zero, Option.some.injEq] at ha
      subst ha
      cases j with
      | zero => exact absurd hij (Nat.lt_irrefl _)
      | succ j =>
        simp only [List.getElem?_cons_succ] at hb
        exact ⟨[], rest, rfl, List.mem_iff_getElem?.mpr ⟨j, hb⟩⟩
    | succ i =>
      cases j with
      | zero => exact absurd hij (Nat.not_lt_zero _)
      | succ j =>
        simp only [List.getElem?_cons_succ] at ha hb
        obtain ⟨L1, L2, h1, h2⟩ := ih i j (by omega) ha hb
        exact ⟨x :: L1, L2, by rw [h1]; rfl, h2⟩

theorem self_mem_preorder {T : Type} {t : Tree T} (hwf : WellFormed t) (h : Nat)
    (hk : Known t h) : h ∈ preorder t h := by
  rw [preorder_eq hwf h hk]
  exact List.mem_cons_self _ _

theorem mem_flatten_map (f : Nat → List Nat) (K : List Nat) (k x : Nat) (hk : k ∈ K)
    (hx : x ∈ f k) : x ∈ (K.map f).flatten :=
  List.mem_flatten.mpr ⟨f k, List.mem_map.mpr ⟨k, hk, rfl⟩, hx⟩

theorem flatten_map_split (f : Nat → List Nat) (K1 K2 : List Nat) (a : Nat) :
    ((K1 ++ a :: K2).map f).flatten = (K1.map f).flatten ++ f a ++ (K2.map f).flatten := by
  simp [List.append_assoc]

/-- The visits below a node form a contiguous block of the whole traversal. -/
theorem preorder_infix {T : Type} {t : Tree T} (hwf : WellFormed t) (m : Nat) :
    ∀ x, x ≤ m → Known t x →
      ∃ A B, (t.roots.map (preorder t)).flatten = A ++ preorder t x ++ B := by
  induction m with
  | zero => intro x hx hk; exact absurd (Nat.le_zero.mp hx) hk.1
  | succ m ih =>
    intro x hx hk
    by_cases hpar : t.nodeParent x = 0
    · have hr : x ∈ t.roots := by
        unfold Tree.roots
        rw [hwf.roots_eq]
        exact (mem_childrenOf t 0 x).mpr ⟨hk, hpar⟩
      obtain ⟨R1, R2, hR⟩ := List.append_of_mem hr
      exact ⟨_, _, by rw [hR, flatten_map_split]⟩
    · have hlt := hwf.parent_lt x hk
      have hkq : Known t (t.nodeParent x) := ⟨hpar, by have := hk.2; omega⟩
      obtain ⟨A, B, hAB⟩ := ih (t.nodeParent x) (by omega) hkq
      have hx : x ∈ childrenOf t (t.nodeParent x) := (mem_childrenOf t _ x).mpr ⟨hk, rfl⟩
      obtain ⟨K1, K2, hK⟩ := List.append_of_mem hx
      refine ⟨A ++ t.nodeParent x :: (K1.map (preorder t)).flatten,
        (K2.map (preorder t)).flatten ++ B, ?_⟩
      rw [hAB, preorder_eq hwf _ hkq, hK, flatten_map_split]
      simp [List.append_assoc]

theorem visitedBefore_of_eq (l A B : List Nat) (a b : Nat) (hl : l = A ++ B) (hnd : l.Nodup)
    (ha : a ∈ A) (hb : b ∈ B) : VisitedBefore l a b := by
  subst hl
  exact visitedBefore_of_split A B a b hnd ha hb

theorem linked_next_split {T : Type} {t : Tree T} (l : List Nat) (prev a : Nat)
    (hl : Linked t prev l) (ha : a ∈ l) (hne : t.nodeSiblingNext a ≠ 0) :
    ∃ K1 K3, l = K1 ++ a :: t.nodeSiblingNext a :: K3 := by
  induction l generalizing prev with
  | nil => simp at ha
  | cons x rest ih =>
    obtain ⟨_, h2, h3⟩ := hl
    by_cases hax : a = x
    · subst hax
      cases rest with
      | nil => exact absurd h2 hne
      | cons y rest2 =>
        refine ⟨[], rest2, ?_⟩
        rw [h2]
        rfl
    · have ha2 : a ∈ rest := by
        rcases List.mem_cons.mp ha with h | h
        · exact absurd h hax
        · exact h
      obtain ⟨K1, K3, hK⟩ := ih x h3 ha2
      exact ⟨x :: K1, K3, by rw [hK]; rfl⟩

/-- The block of visits below a node contains the children of each of its members. -/
theorem preorder_closed {T : Type} {t : Tree T} (hwf : WellFormed t) (d : Nat) :
    ∀ a, Known t a → t.m_vecNode.length - a < d →
      ∀ x ∈ preorder t a, ∀ k ∈ childrenOf t x, k ∈ preorder t a := by
  induction d with
  | zero => intro a _ hd; exact absurd hd (Nat.not_lt_zero _)
  | succ d ih =>
    intro a hk hd x hx k hkx
    have hkk : Known t k := ((mem_childrenOf t x k).mp hkx).1
    rw [preorder_eq hwf a hk] at hx ⊢
    rcases List.mem_cons.mp hx with hxa | hxf
    · subst hxa
      exact List.mem_cons_of_mem _
        (mem_flatten_map _ _ k k hkx (self_mem_preorder hwf k hkk))
    · obtain ⟨lst, hlst, hxl⟩ := List.mem_flatten.mp hxf
      obtain ⟨c, hc, rfl⟩ := List.mem_map.mp hlst
      obtain ⟨hkc, hpc⟩ := (mem_childrenOf t a c).mp hc
      have hlt := hwf.parent_lt c hkc
      rw [hpc] at hlt
      have hc2 := hkc.2
      have := ih c hkc (by omega) x hxl k hkx
      exact List.mem_cons_of_mem _ (mem_flatten_map _ _ c k hc this)

theorem known_of_mem_preorder {T : Type} [Inhabited T] {issued : List Nat} {t : Tree T}
    (hb : BuiltBy issued t) (a : Nat) (hk : Known t a) (x : Nat) (hx : x ∈ preorder t a) :
    Known t x := by
  obtain ⟨A, B, hAB⟩ := preorder_infix (builtBy_wf hb) a a (Nat.le_refl _) hk
  have hm : x ∈ (t.roots.map (preorder t)).flatten := by
    rw [hAB]
    exact List.mem_append_left _ (List.mem_append_right _ hx)
  exact (builtBy_mem hb x).mp ((preorder_roots_perm hb).mem_iff.mp hm)

theorem descendant_mem_preorder {T : Type} [Inhabited T] {issued : List Nat} {t : Tree T}
    (hb : BuiltBy issued t) (a : Nat) (hk : Known t a) (k : Nat) :
    ∀ d, (t.nodeParent)^[k + 1] d = a → d ∈ preorder t a := by
  have hwf := builtBy_wf hb
  have hstep : ∀ d, t.nodeParent d ∈ preorder t a → d ∈ preorder t a := by
    intro d hm
    have hkp := known_of_mem_preorder hb a hk _ hm
    have hkd : Known t d := by
      by_contra hkd
      rw [nodeParent_unknown t d hkd] at hkp
      exact not_known_zero t hkp
    exact preorder_closed hwf (t.m_vecNode.length - a + 1) a hk (by omega) _ hm d
      ((mem_childrenOf t _ d).mpr ⟨hkd, rfl⟩)
  induction k with
  | zero =>
    intro d hd
    apply hstep
    rw [Function.iterate_succ_apply, Function.iterate_zero, id] at hd
    rw [hd]
    exact self_mem_preorder hwf a hk
  | succ k ih =>
    intro d hd
    rw [Function.iterate_succ_apply] at hd
    exact hstep d (ih _ hd)

/-- Every visit below a node is the node itself or one of its descendants. -/
theorem mem_preorder_descendant {T : Type} {t : Tree T} (hwf : WellFormed t) (d : Nat) :
    ∀ a, Known t a → t.m_vecNode.length - a < d →
      ∀ x ∈ preorder t a, x = a ∨ IsDescendant t a x := by
  induction d with
  | zero => intro a _ hd; exact absurd hd (Nat.not_lt_zero _)
  | succ d ih =>
    intro a hk hd x hx
    rw [preorder_eq hwf a hk] at hx
    rcases List.mem_cons.mp hx with hxa | hxf
    · exact Or.inl hxa
    · right
      obtain ⟨lst, hlst, hxl⟩ := List.mem_flatten.mp hxf
      obtain ⟨c, hc, rfl⟩ := List.mem_map.mp hlst
      obtain ⟨hkc, hpc⟩ := (mem_childrenOf t a c).mp hc
      have hlt := hwf.parent_lt c hkc
      rw [hpc] at hlt
      have hc2 := hkc.2
      rcases ih c hkc (by omega) x hxl with hxc | ⟨k, hk0, hkx⟩
      · subst hxc
        exact ⟨1, Nat.one_pos, by rw [Function.iterate_one]; exact hpc⟩
      · exact ⟨k + 1, Nat.succ_pos _, by rw [Function.iterate_succ_apply', hkx]; exact hpc⟩

/-- C8: the traversal of a tree built by valid `appendChild` calls is
depth-first pre-order.  Its visit sequence `visits` (every issued node occurs in
it exactly once) is the concatenation, in `roots()` order, of one block per
root, where the block of a node is what the traversal from that node visits: the
node itself followed by the blocks of its children in child-chain order; the
block of a node consists of the node and its descendants and is a contiguous
part of `visits`.  Hence: roots are entered in `roots()` order, and a root with
all its descendants is visited before every later root; every node is visited
after its parent; the children of a node are visited in child-chain order, a
child with all its descendants before every later child, so every node is
visited after all of its preceding siblings; and a node and all of its
descendants are visited before that node's next sibling. -/
theorem C8_traversal_is_preorder {T : Type} [Inhabited T] (issued : List Nat)
    (t : Tree T) (hb : BuiltBy issued t) :
    ∃ visits, (∀ fuel, 2 * issued.length ≤ fuel → deepForeachTreeNode t fuel = some visits) ∧
      visits.Nodup ∧ visits.Perm issued ∧
      (∃ block : Nat → List Nat,
        visits = (t.roots.map block).flatten ∧
        ∀ h, h ∈ issued →
          (∀ fuel, 2 * issued.length ≤ fuel →
            deepForeachTreeNodeFrom t fuel h = some (block h)) ∧
          (∃ chain, (∀ fuel, t.m_vecNode.length < fuel → childChain t fuel h = some chain) ∧
            block h = h :: (chain.map block).flatten) ∧
          (∀ d, d ∈ block h ↔ d = h ∨ IsDescendant t h d) ∧
          (∃ before after, visits = before ++ block h ++ after)) ∧
      (∀ (i j a b : Nat), i < j → t.roots[i]? = some a → t.roots[j]? = some b →
        VisitedBefore visits a b ∧ ∀ d, IsDescendant t a d → VisitedBefore visits d b) ∧
      (∀ h, h ∈ issued → t.nodeParent h ≠ 0 → VisitedBefore visits (t.nodeParent h) h) ∧
      (∀ p, p ∈ issued → ∃ chain,
        (∀ fuel, t.m_vecNode.length < fuel → childChain t fuel p = some chain) ∧
        ∀ (i j a b : Nat), i < j → chain[i]? = some a → chain[j]? = some b →
          VisitedBefore visits a b ∧ ∀ d, IsDescendant t a d → VisitedBefore visits d b) ∧
      (∀ a, a ∈ issued → t.nodeSiblingNext a ≠ 0 →
        VisitedBefore visits a (t.nodeSiblingNext a) ∧
        ∀ d, IsDescendant t a d → VisitedBefore visits d (t.nodeSiblingNext a)) := by
  have hwf := builtBy_wf hb
  have hperm := preorder_roots_perm hb
  have hndi : issued.Nodup := by
    rw [(builtBy_inv hb).2]
    exact List.nodup_range' 1 _
  have hnd : ((t.roots.map (preorder t)).flatten).Nodup := hperm.nodup_iff.mpr hndi
  have hroot_known : ∀ r ∈ t.roots, Known t r := by
    intro r hr
    have : r ∈ childrenOf t 0 := by
      rw [← hwf.roots_eq]
      exact hr
    exact ((mem_childrenOf t 0 r).mp this).1
  -- a descendant is visited in the block of its ancestor
  have hdesc : ∀ a, Known t a → ∀ d, IsDescendant t a d → d ∈ preorder t a := by
    rintro a hka d ⟨k, hk0, hkd⟩
    obtain ⟨k1, rfl⟩ : ∃ k1, k = k1 + 1 := ⟨k - 1, by omega⟩
    exact descendant_mem_preorder hb a hka k1 d hkd
  -- the block of a root is visited before every later root
  have hroot : ∀ L1 L2 a b, t.roots = L1 ++ a :: L2 → b ∈ L2 →
      ∀ d, d ∈ preorder t a → VisitedBefore ((t.roots.map (preorder t)).flatten) d b := by
    intro L1 L2 a b hL hbL d hd
    have hkb : Known t b := hroot_known b (by rw [hL]; simp [hbL])
    apply visitedBefore_of_eq _ ((L1.map (preorder t)).flatten ++ preorder t a)
      ((L2.map (preorder t)).flatten) d b _ hnd
    · exact List.mem_append_right _ hd
    · exact mem_flatten_map _ _ b b hbL (self_mem_preorder hwf b hkb)
    · rw [hL, flatten_map_split]
  -- the block of a child is visited before every later child
  have hsib : ∀ p, Known t p → ∀ K1 K2 a b, childrenOf t p = K1 ++ a :: K2 → b ∈ K2 →
      ∀ d, d ∈ preorder t a → VisitedBefore ((t.roots.map (preorder t)).flatten) d b := by
    intro p hkp K1 K2 a b hK hbK d hd
    obtain ⟨A, B, hAB⟩ := preorder_infix hwf p p (Nat.le_refl _) hkp
    have hkb : Known t b := by
      have : b ∈ childrenOf t p := by
        rw [hK]
        exact List.mem_append_right _ (List.mem_cons_of_mem _ hbK)
      exact ((mem_childrenOf t p b).mp this).1
    apply visitedBefore_of_eq _
      (A ++ p :: ((K1.map (preorder t)).flatten ++ preorder t a))
      ((K2.map (preorder t)).flatten ++ B) d b _ hnd
    · exact List.mem_append_right _ (List.mem_cons_of_mem _ (List.mem_append_right _ hd))
    · exact List.mem_append_left _
        (mem_flatten_map _ _ b b hbK (self_mem_preorder hwf b hkb))
    · rw [hAB, preorder_eq hwf p hkp, hK, flatten_map_split]
      simp [List.append_assoc]
  refine ⟨_, ?_, hnd, hperm, ⟨preorder t, rfl, ?_⟩, ?_, ?_, ?_, ?_⟩
  · intro fuel hf
    rw [builtBy_length hb] at hf
    exact deepForeachTreeNode_eq hwf fuel hf
  · -- the blocks
    intro h hh
    have hk : Known t h := (builtBy_mem hb h).mp hh
    refine ⟨?_, ⟨childrenOf t h, fun fuel hf => childChain_eq hwf h hk fuel hf,
      preorder_eq hwf h hk⟩, ?_, ?_⟩
    · intro fuel hf
      rw [builtBy_length hb] at hf
      exact deepForeachTreeNodeFrom_preorder hwf h hk fuel hf
    · intro d
      constructor
      · intro hd
        exact mem_preorder_descendant hwf (t.m_vecNode.length - h + 1) h hk (by omega) d hd
      · rintro (rfl | hd)
        · exact self_mem_preorder hwf d hk
        · exact hdesc h hk d hd
    · exact preorder_infix hwf h h (Nat.le_refl _) hk
  · -- roots
    intro i j a b hij ha hbj
    obtain ⟨L1, L2, hL, hbL⟩ := split_of_getElem? t.roots i j a b hij ha hbj
    have hka : Known t a := hroot_known a (by rw [hL]; simp)
    exact ⟨hroot L1 L2 a b hL hbL a (self_mem_preorder hwf a hka),
      fun d hd => hroot L1 L2 a b hL hbL d (hdesc a hka d hd)⟩
  · -- parent before child
    intro h hh hpar
    have hk : Known t h := (builtBy_mem hb h).mp hh
    have hlt := hwf.parent_lt h hk
    have hkq : Known t (t.nodeParent h) := ⟨hpar, by have := hk.2; omega⟩
    obtain ⟨A, B, hAB⟩ := preorder_infix hwf _ _ (Nat.le_refl _) hkq
    apply visitedBefore_of_eq _ (A ++ [t.nodeParent h])
      (((childrenOf t (t.nodeParent h)).map (preorder t)).flatten ++ B) _ _ _ hnd
    · simp
    · exact List.mem_append_left _ (mem_flatten_map _ _ h h
        ((mem_childrenOf t _ h).mpr ⟨hk, rfl⟩) (self_mem_preorder hwf h hk))
    · rw [hAB, preorder_eq hwf _ hkq]
      simp [List.append_assoc]
  · -- siblings in chain order
    intro p hp
    have hkp : Known t p := (builtBy_mem hb p).mp hp
    refine ⟨childrenOf t p, fun fuel hf => childChain_eq hwf p hkp fuel hf, ?_⟩
    intro i j a b hij ha hbj
    obtain ⟨K1, K2, hK, hbK⟩ := split_of_getElem? _ i j a b hij ha hbj
    have hka : Known t a := by
      have : a ∈ childrenOf t p := by
        rw [hK]
        simp
      exact ((mem_childrenOf t p a).mp this).1
    exact ⟨hsib p hkp K1 K2 a b hK hbK a (self_mem_preorder hwf a hka),
      fun d hd => hsib p hkp K1 K2 a b hK hbK d (hdesc a hka d hd)⟩
  · -- descendants before the next sibling
    intro a ha hne
    have hka : Known t a := (builtBy_mem hb a).mp ha
    have hpar : t.nodeParent a ≠ 0 := by
      intro h0
      exact hne (hwf.root_links a hka h0).2
    have hlt := hwf.parent_lt a hka
    have hkq : Known t (t.nodeParent a) := ⟨hpar, by have := hka.2; omega⟩
    obtain ⟨K1, K3, hK⟩ := linked_next_split _ 0 a (hwf.linked _ hkq)
      ((mem_childrenOf t _ a).mpr ⟨hka, rfl⟩) hne
    have hall := hsib _ hkq K1 (t.nodeSiblingNext a :: K3) a (t.nodeSiblingNext a) hK
      (List.mem_cons_self _ _)
    exact ⟨hall a (self_mem_preorder hwf a hka), fun d hd => hall d (hdesc a hka d hd)⟩

theorem C8_traversal_is_preorder_witness :
    deepForeachTreeNode sampleTree5 10 = some [1, 3, 5, 4, 2] ∧
    ∃ visits, (∀ fuel, 2 * [1, 2, 3, 4, 5].length ≤ fuel →
        deepForeachTreeNode sampleTree5 fuel = some visits) ∧
      visits.Nodup ∧ visits.Perm [1, 2, 3, 4, 5] ∧
      (∃ block : Nat → List Nat,
        visits = (sampleTree5.roots.map block).flatten ∧
        ∀ h, h ∈ [1, 2, 3, 4, 5] →
          (∀ fuel, 2 * [1, 2, 3, 4, 5].length ≤ fuel →
            deepForeachTreeNodeFrom sampleTree5 fuel h = some (block h)) ∧
          (∃ chain, (∀ fuel, sampleTree5.m_vecNode.length < fuel →
              childChain sampleTree5 fuel h = some chain) ∧
            block h = h :: (chain.map block).flatten) ∧
          (∀ d, d ∈ block h ↔ d = h ∨ IsDescendant sampleTree5 h d) ∧
          (∃ before after, visits = before ++ block h ++ after)) ∧
      (∀ (i j a b : Nat), i < j → sampleTree5.roots[i]? = some a →
        sampleTree5.roots[j]? = some b →
        VisitedBefore visits a b ∧
        ∀ d, IsDescendant sampleTree5 a d → VisitedBefore visits d b) ∧
      (∀ h, h ∈ [1, 2, 3, 4, 5] → sampleTree5.nodeParent h ≠ 0 →
        VisitedBefore visits (sampleTree5.nodeParent h) h) ∧
      (∀ p, p ∈ [1, 2, 3, 4, 5] → ∃ chain,
        (∀ fuel, sampleTree5.m_vecNode.length < fuel →
          childChain sampleTree5 fuel p = some chain) ∧
        ∀ (i j a b : Nat), i < j → chain[i]? = some a → chain[j]? = some b →
          VisitedBefore visits a b ∧
          ∀ d, IsDescendant sampleTree5 a d → VisitedBefore visits d b) ∧
      (∀ a, a ∈ [1, 2, 3, 4, 5] → sampleTree5.nodeSiblingNext a ≠ 0 →
        VisitedBefore visits a (sampleTree5.nodeSiblingNext a) ∧
        ∀ d, IsDescendant sampleTree5 a d →
          VisitedBefore visits d (sampleTree5.nodeSiblingNext a)) :=
  ⟨by decide, C8_traversal_is_preorder [1, 2, 3, 4, 5] sampleTree5 builtBy_sampleTree5⟩

/-- C11: `Tree::remove` fails loudly for every input: for every tree and every
handle `h`, known or not, `remove(h)` hits the failing assertion and does not
return normally, so it yields no tree at all, in particular none that still
contains the node. -/
theorem C11_remove_always_fails {T : Type} (t : Tree T) (h : Nat) :
    Expects (false && true) = none ∧ t.remove h = none ∧ ∀ t1, t.remove h ≠ some t1 := by
  have hrem : t.remove h = none := rfl
  refine ⟨rfl, hrem, ?_⟩
  intro t1 hc
  rw [hrem] at hc
  cases hc

/-- C12: `clear()` drops all nodes and roots and invalidates every handle: for
every tree, after `clear()` the arena and `roots()` are empty and, for every
handle `h` (handles issued before the `clear` included), `ptrNode` is null, the
handle-valued accessors return `0`, `nodeIsRoot(h)` is `false` and
`nodeData(h)` is the default `T`. -/
theorem C12_clear_invalidates_all_handles {T : Type} [Inhabited T] (t : Tree T) (h : Nat) :
    t.clear.roots = [] ∧ t.clear.m_vecNode = [] ∧ t.clear.ptrNode h = none ∧
    t.clear.nodeParent h = 0 ∧ t.clear.nodeChildFirst h = 0 ∧ t.clear.nodeChildLast h = 0 ∧
    t.clear.nodeSiblingPrevious h = 0 ∧ t.clear.nodeSiblingNext h = 0 ∧
    t.clear.nodeIsRoot h = false ∧ t.clear.nodeData h = default := by
  have hk : ¬ Known t.clear h := by
    rintro ⟨h1, h2⟩
    have h3 : h ≤ 0 := h2
    omega
  exact ⟨rfl, rfl, ptrNode_eq_none _ h hk, nodeParent_unknown _ h hk,
    nodeChildFirst_unknown _ h hk, nodeChildLast_unknown _ h hk,
    nodeSiblingPrevious_unknown _ h hk, nodeSiblingNext_unknown _ h hk,
    nodeIsRoot_unknown _ h hk, nodeData_unknown _ h hk⟩

theorem writeNode_back {T : Type} (nodes : List (TreeNode T)) (r : List Nat) (x : TreeNode T)
    (f : TreeNode T → TreeNode T) :
    (Tree.mk (nodes ++ [x]) r).writeNode (nodes.length + 1) f =
      some (Tree.mk (nodes ++ [f x]) r) := by
  unfold Tree.writeNode
  rw [ptrNode_push, if_pos rfl]
  simp

theorem ptrNode_back {T : Type} (nodes : List (TreeNode T)) (r : List Nat) (x : TreeNode T) :
    (Tree.mk (nodes ++ [x]) r).ptrNode (nodes.length + 1) = some x := by
  rw [ptrNode_push, if_pos rfl]

/-- C16: `appendChild` accepts as parent the handle it is about to issue.  For
every tree with `n` nodes, `appendChild(n + 1, v)` returns `n + 1` without
dereferencing a null pointer; afterwards node `n + 1` has
`nodeParent == nodeChildFirst == nodeChildLast == n + 1` (it is its own parent
and its own only child) and `nodeSiblingPrevious == nodeSiblingNext == 0`, and
`roots()` is unchanged, so the node is not added to it. -/
theorem C16_appendChild_with_own_handle_as_parent {T : Type} [Inhabited T] (t : Tree T)
    (v : T) :
    ∃ t1, t.appendChild (t.m_vecNode.length + 1) v = some (t.m_vecNode.length + 1, t1) ∧
      t1.m_vecNode.length = t.m_vecNode.length + 1 ∧
      t1.nodeParent (t.m_vecNode.length + 1) = t.m_vecNode.length + 1 ∧
      t1.nodeChildFirst (t.m_vecNode.length + 1) = t.m_vecNode.length + 1 ∧
      t1.nodeChildLast (t.m_vecNode.length + 1) = t.m_vecNode.length + 1 ∧
      t1.nodeSiblingPrevious (t.m_vecNode.length + 1) = 0 ∧
      t1.nodeSiblingNext (t.m_vecNode.length + 1) = 0 ∧
      t1.nodeData (t.m_vecNode.length + 1) = v ∧
      t1.roots = t.roots := by
  obtain ⟨nodes, rts⟩ := t
  have hdef : (default : TreeNode T) = ⟨0, 0, 0, 0, 0, default⟩ := rfl
  refine ⟨⟨nodes ++ [⟨0, 0, nodes.length + 1, nodes.length + 1, nodes.length + 1, v⟩], rts⟩,
    ?_, ?_, ?_, ?_, ?_, ?_, ?_, ?_, rfl⟩
  · unfold Tree.appendChild
    simp only [Tree.lastNodeId, List.length_append, List.length_singleton, writeNode_back,
      Option.some_bind, Tree.nodeChildLast, ptrNode_back, hdef, ne_eq, Nat.succ_ne_zero,
      not_false_eq_true, if_true, if_false, not_true_eq_false]
  · simp
  all_goals
    simp only [Tree.nodeParent, Tree.nodeChildFirst, Tree.nodeChildLast,
      Tree.nodeSiblingPrevious, Tree.nodeSiblingNext, Tree.nodeData, ptrNode_back]

theorem find?_first_match {α : Type} (p : α → Bool) (l : List α) (a : α)
    (h : l.find? p = some a) :
    ∃ i, l[i]? = some a ∧ p a = true ∧ ∀ (j : Nat) (b : α), j < i → l[j]? = some b → p b = false := by
  induction l with
  | nil => simp at h
  | cons x rest ih =>
    by_cases hx : p x = true
    · rw [List.find?_cons_of_pos _ hx] at h
      cases h
      exact ⟨0, by simp, hx, fun j b hj _ => absurd hj (Nat.not_lt_zero _)⟩
    · rw [List.find?_cons_of_neg _ hx] at h
      obtain ⟨i, h1, h2, h3⟩ := ih h
      refine ⟨i + 1, by simpa using h1, h2, ?_⟩
      intro j b hj hb
      cases j with
      | zero =>
        simp only [List.getElem?_cons_zero, Option.some.injEq] at hb
        subst hb
        simpa using hx
      | succ j =>
        simp only [List.getElem?_cons_succ] at hb
        exact h3 j b (by omega) hb

/-- C15: `partFormatFromFilter` resolves a filter string through the order of
`partFormats()`: for every string `s` it returns the first format `f` of
`partFormats()` with `partFormatFilter(f) == s`, and `PartFormat::Unknown` when
no format of `partFormats()` has that filter; consequently, when the filters of
the formats in `partFormats()` are pairwise distinct,
`partFormatFromFilter(partFormatFilter(f)) == f` for every `f` in
`partFormats()`. -/
theorem C15_partFormatFromFilter_first_match (partFormats : List PartFormat)
    (partFormatFilter : PartFormat → String) :
    (∀ s,
      (∃ i, partFormats[i]? = some (partFormatFromFilter partFormats partFormatFilter s) ∧
        partFormatFilter (partFormatFromFilter partFormats partFormatFilter s) = s ∧
        ∀ (j : Nat) (g : PartFormat), j < i → partFormats[j]? = some g →
          partFormatFilter g ≠ s) ∨
      ((∀ g ∈ partFormats, partFormatFilter g ≠ s) ∧
        partFormatFromFilter partFormats partFormatFilter s = PartFormat.Unknown)) ∧
    (partFormats.Pairwise (fun f g => partFormatFilter f ≠ partFormatFilter g) →
      ∀ f ∈ partFormats,
        partFormatFromFilter partFormats partFormatFilter (partFormatFilter f) = f) := by
  have hmain : ∀ s,
      (∃ i, partFormats[i]? = some (partFormatFromFilter partFormats partFormatFilter s) ∧
        partFormatFilter (partFormatFromFilter partFormats partFormatFilter s) = s ∧
        ∀ (j : Nat) (g : PartFormat), j < i → partFormats[j]? = some g →
          partFormatFilter g ≠ s) ∨
      ((∀ g ∈ partFormats, partFormatFilter g ≠ s) ∧
        partFormatFromFilter partFormats partFormatFilter s = PartFormat.Unknown) := by
    intro s
    unfold partFormatFromFilter
    cases hf : partFormats.find? (fun format => s == partFormatFilter format) with
    | none =>
      right
      refine ⟨?_, rfl⟩
      intro g hg hc
      have := List.find?_eq_none.mp hf g hg
      simp [hc] at this
    | some f =>
      left
      obtain ⟨i, h1, h2, h3⟩ := find?_first_match _ _ _ hf
      refine ⟨i, h1, ?_, ?_⟩
      · exact (beq_iff_eq.mp h2).symm
      · intro j g hj hg hc
        have := h3 j g hj hg
        simp [hc] at this
  refine ⟨hmain, ?_⟩
  intro hpw f hf
  rcases hmain (partFormatFilter f) with ⟨i, h1, h2, h3⟩ | ⟨h1, _⟩
  · obtain ⟨k, hk⟩ := List.mem_iff_getElem?.mp hf
    by_contra hne
    have hik : i ≠ k := by
      rintro rfl
      rw [hk] at h1
      exact hne (Option.some.inj h1).symm
    rcases Nat.lt_or_gt_of_ne hik with hlt | hgt
    · have h4 := List.pairwise_iff_getElem.mp hpw i k
        (by
          by_contra hh
          rw [List.getElem?_eq_none (by omega)] at h1
          cases h1)
        (by
          by_contra hh
          rw [List.getElem?_eq_none (by omega)] at hk
          cases hk) hlt
      rw [List.getElem?_eq_some_iff] at h1 hk
      obtain ⟨_, e1⟩ := h1
      obtain ⟨_, e2⟩ := hk
      rw [e1, e2] at h4
      exact h4 h2
    · exact h3 k f hgt hk rfl
  · exact absurd rfl (h1 f hf)

theorem C15_partFormatFromFilter_first_match_witness :
    partFormatFromFilter [PartFormat.Iges, PartFormat.Step, PartFormat.OccBrep, PartFormat.Stl]
      (fun f => match f with
        | PartFormat.Iges => "IGES files(*.iges *.igs)"
        | PartFormat.Step => "STEP files(*.step *.stp)"
        | PartFormat.OccBrep => "OpenCascade BREP files(*.brep *.occ)"
        | PartFormat.Stl => "STL files(*.stl *.stla)"
        | PartFormat.Unknown => "")
      "STEP files(*.step *.stp)" = PartFormat.Step :=
  (C15_partFormatFromFilter_first_match
    [PartFormat.Iges, PartFormat.Step, PartFormat.OccBrep, PartFormat.Stl]
    (fun f => match f with
      | PartFormat.Iges => "IGES files(*.iges *.igs)"
      | PartFormat.Step => "STEP files(*.step *.stp)"
      | PartFormat.OccBrep => "OpenCascade BREP files(*.brep *.occ)"
      | PartFormat.Stl => "STL files(*.stl *.stla)"
      | PartFormat.Unknown => "")).2 (by decide) PartFormat.Step (by decide)


theorem linked_sorted {T : Type} {t : Tree T} (l : List Nat) (prev : Nat)
    (hl : Linked t prev l) (hs : l.Pairwise (fun a b => a < b)) (hprev : ∀ a ∈ l, prev < a) :
    ∀ a ∈ l, t.nodeSiblingPrevious a < a ∧ (t.nodeSiblingNext a = 0 ∨ a < t.nodeSiblingNext a) := by
  induction l generalizing prev with
  | nil => intro a ha; simp at ha
  | cons x rest ih =>
    obtain ⟨h1, h2, h3⟩ := hl
    obtain ⟨hx, hrest⟩ := List.pairwise_cons.mp hs
    intro a ha
    rcases List.mem_cons.mp ha with rfl | har
    · refine ⟨by rw [h1]; exact hprev a (List.mem_cons_self _ _), ?_⟩
      cases rest with
      | nil => left; exact h2
      | cons y rest2 =>
        right
        rw [h2]
        exact hx y (List.mem_cons_self _ _)
    · exact ih x h3 hrest hx a har

theorem pairwise_childrenOf {T : Type} (t : Tree T) (p : Nat) :
    (childrenOf t p).Pairwise (fun a b => a < b) :=
  List.Pairwise.filter _ (List.pairwise_lt_range' 1 _)

theorem nodeParent_le_pred {T : Type} {t : Tree T} (hwf : WellFormed t) (x : Nat) :
    t.nodeParent x ≤ x - 1 := by
  by_cases hk : Known t x
  · have := hwf.parent_lt x hk
    omega
  · rw [nodeParent_unknown t x hk]
    exact Nat.zero_le _

theorem iterate_nodeParent_le {T : Type} {t : Tree T} (hwf : WellFormed t) (k : Nat) :
    ∀ x, (t.nodeParent)^[k] x ≤ x - k := by
  induction k with
  | zero => intro x; exact Nat.le_refl _
  | succ k ih =>
    intro x
    rw [Function.iterate_succ_apply]
    have h1 := ih (t.nodeParent x)
    have h2 := nodeParent_le_pred hwf x
    omega

/-- C17: in a tree built by valid `appendChild` calls the links only point
forward in handle order: for every known `h`, `nodeParent(h) < h` and
`nodeSiblingPrevious(h) < h`, while `nodeChildFirst(h)`, `nodeChildLast(h)` and
`nodeSiblingNext(h)` are each `0` or greater than `h`.  Hence following
`nodeParent` from any handle `h` reaches `0` within `h` steps (and stays there),
and the recursion of `deepForeachTreeNode` is well-founded: the traversal from
every known node, and the whole traversal, returns with every fuel from twice
the number of nodes on. -/
theorem C17_links_point_forward {T : Type} [Inhabited T] (issued : List Nat) (t : Tree T)
    (hb : BuiltBy issued t) :
    (∀ h, h ∈ issued →
      t.nodeParent h < h ∧ t.nodeSiblingPrevious h < h ∧
      (t.nodeChildFirst h = 0 ∨ h < t.nodeChildFirst h) ∧
      (t.nodeChildLast h = 0 ∨ h < t.nodeChildLast h) ∧
      (t.nodeSiblingNext h = 0 ∨ h < t.nodeSiblingNext h)) ∧
    (∀ h, (∃ k, k ≤ h ∧ (t.nodeParent)^[k] h = 0) ∧ ∀ k, h ≤ k → (t.nodeParent)^[k] h = 0) ∧
    (∀ h, h ∈ issued → ∃ sub, ∀ fuel, 2 * issued.length ≤ fuel →
      deepForeachTreeNodeFrom t fuel h = some sub) ∧
    (∃ visits, ∀ fuel, 2 * issued.length ≤ fuel → deepForeachTreeNode t fuel = some visits) := by
  have hwf := builtBy_wf hb
  have hiter : ∀ h k, h ≤ k → (t.nodeParent)^[k] h = 0 := by
    intro h k hk
    have := iterate_nodeParent_le hwf k h
    omega
  refine ⟨?_, fun h => ⟨⟨h, Nat.le_refl _, hiter h h (Nat.le_refl _)⟩, hiter h⟩, ?_, ?_⟩
  · intro h hh
    have hk : Known t h := (builtBy_mem hb h).mp hh
    have hpos : 0 < h := Nat.pos_of_ne_zero hk.1
    have hlt := hwf.parent_lt h hk
    have hchild : ∀ c, c ∈ childrenOf t h → h < c := by
      intro c hc
      obtain ⟨hkc, hpc⟩ := (mem_childrenOf t h c).mp hc
      have := hwf.parent_lt c hkc
      omega
    have hsib : t.nodeSiblingPrevious h < h ∧
        (t.nodeSiblingNext h = 0 ∨ h < t.nodeSiblingNext h) := by
      by_cases hpar : t.nodeParent h = 0
      · obtain ⟨e1, e2⟩ := hwf.root_links h hk hpar
        rw [e1, e2]
        exact ⟨hpos, Or.inl rfl⟩
      · have hkp : Known t (t.nodeParent h) := ⟨hpar, by have := hk.2; omega⟩
        exact linked_sorted _ 0 (hwf.linked _ hkp) (pairwise_childrenOf t _)
          (fun a ha => Nat.pos_of_ne_zero (childrenOf_ne_zero t _ a ha)) h
          ((mem_childrenOf t _ h).mpr ⟨hk, rfl⟩)
    refine ⟨hlt, hsib.1, ?_, ?_, hsib.2⟩
    · rw [hwf.childFirst_eq h hk]
      by_cases hl : childrenOf t h = []
      · left
        rw [hl]
        rfl
      · right
        exact hchild _ (headD_mem hl)
    · rw [hwf.childLast_eq h hk]
      by_cases hl : childrenOf t h = []
      · left
        rw [hl]
        rfl
      · right
        exact hchild _ (getLastD_mem 0 hl)
  · intro h hh
    have hk : Known t h := (builtBy_mem hb h).mp hh
    refine ⟨preorder t h, fun fuel hf => ?_⟩
    rw [builtBy_length hb] at hf
    exact deepForeachTreeNodeFrom_preorder hwf h hk fuel hf
  · refine ⟨(t.roots.map (preorder t)).flatten, fun fuel hf => ?_⟩
    rw [builtBy_length hb] at hf
    exact deepForeachTreeNode_eq hwf fuel hf

theorem C17_links_point_forward_witness :
    (∀ h, h ∈ [1, 2, 3, 4, 5] →
      sampleTree5.nodeParent h < h ∧ sampleTree5.nodeSiblingPrevious h < h ∧
      (sampleTree5.nodeChildFirst h = 0 ∨ h < sampleTree5.nodeChildFirst h) ∧
      (sampleTree5.nodeChildLast h = 0 ∨ h < sampleTree5.nodeChildLast h) ∧
      (sampleTree5.nodeSiblingNext h = 0 ∨ h < sampleTree5.nodeSiblingNext h)) ∧
    (∀ h, (∃ k, k ≤ h ∧ (sampleTree5.nodeParent)^[k] h = 0) ∧
      ∀ k, h ≤ k → (sampleTree5.nodeParent)^[k] h = 0) ∧
    (∀ h, h ∈ [1, 2, 3, 4, 5] → ∃ sub, ∀ fuel, 2 * [1, 2, 3, 4, 5].length ≤ fuel →
      deepForeachTreeNodeFrom sampleTree5 fuel h = some sub) ∧
    (∃ visits, ∀ fuel, 2 * [1, 2, 3, 4, 5].length ≤ fuel →
      deepForeachTreeNode sampleTree5 fuel = some visits) :=
  C17_links_point_forward [1, 2, 3, 4, 5] sampleTree5 builtBy_sampleTree5

/-- C18: roots are not chained as siblings.  In a tree built by valid
`appendChild` calls every root `r` has `nodeSiblingPrevious(r) == 0` and
`nodeSiblingNext(r) == 0`, however many roots there are; following
`nodeSiblingNext` from a root therefore meets that root only, and the roots are
obtained from `roots()`. -/
theorem C18_roots_have_no_sibling_links {T : Type} [Inhabited T] (issued : List Nat)
    (t : Tree T) (hb : BuiltBy issued t) (r : Nat) (hr : r ∈ t.roots) :
    t.nodeSiblingPrevious r = 0 ∧ t.nodeSiblingNext r = 0 ∧
    (∀ fuel, 2 ≤ fuel → siblingLoop t (fun it => some [it]) fuel r = some [r]) := by
  have hwf := builtBy_wf hb
  have hm : r ∈ childrenOf t 0 := by
    rw [← hwf.roots_eq]
    exact hr
  obtain ⟨hk, hp⟩ := (mem_childrenOf t 0 r).mp hm
  obtain ⟨e1, e2⟩ := hwf.root_links r hk hp
  refine ⟨e1, e2, ?_⟩
  intro fuel hf
  obtain ⟨f2, rfl⟩ : ∃ f2, fuel = f2 + 2 := ⟨fuel - 2, by omega⟩
  simp [siblingLoop, hk.1, e2]

theorem C18_roots_have_no_sibling_links_witness :
    sampleTree5.nodeSiblingPrevious 2 = 0 ∧ sampleTree5.nodeSiblingNext 2 = 0 ∧
    (∀ fuel, 2 ≤ fuel → siblingLoop sampleTree5 (fun it => some [it]) fuel 2 = some [2]) :=
  C18_roots_have_no_sibling_links [1, 2, 3, 4, 5] sampleTree5 builtBy_sampleTree5 2
    (by decide)


/-! ## Building the assembly tree -/

theorem forEachLabel_single {L : Type} (body : Tree L → L → Option (Tree L)) (t : Tree L)
    (x : L) : forEachLabel body t [x] = body t x := by
  unfold forEachLabel
  cases body t x <;> rfl

theorem deepBuildAssemblyTree_succ {L : Type} [Inhabited L] (doc : ShapeDocument L)
    (fuel : Nat) (t : Tree L) (p : Nat) (label : L) :
    deepBuildAssemblyTree doc (fuel + 1) t p label =
      (t.appendChild p label).bind fun r =>
        forEachLabel (fun t1 child => deepBuildAssemblyTree doc fuel t1 r.1 child) r.2
          (doc.childLabels label) := by
  rw [deepBuildAssemblyTree]
  unfold ShapeDocument.childLabels
  cases t.appendChild p label with
  | none => rfl
  | some r =>
    simp only [Option.some_bind]
    cases h1 : doc.isShapeAssembly label <;> cases h2 : doc.isShapeSimple label <;>
      cases h3 : doc.isShapeReference label <;>
      simp [forEachLabel_single, forEachLabel]

theorem forEachLabel_mono {L : Type} (body body1 : Tree L → L → Option (Tree L))
    (hb : ∀ t c t1, body t c = some t1 → body1 t c = some t1) (labels : List L) :
    ∀ t t1, forEachLabel body t labels = some t1 → forEachLabel body1 t labels = some t1 := by
  induction labels with
  | nil => intro t t1 h; exact h
  | cons c rest ih =>
    intro t t1 h
    unfold forEachLabel at h ⊢
    cases hc : body t c with
    | none => rw [hc] at h; cases h
    | some t2 =>
      rw [hc] at h
      rw [hb t c t2 hc]
      exact ih t2 t1 h

theorem deepBuildAssemblyTree_mono {L : Type} [Inhabited L] (doc : ShapeDocument L)
    (fuel : Nat) : ∀ t p label t1, deepBuildAssemblyTree doc fuel t p label = some t1 →
      deepBuildAssemblyTree doc (fuel + 1) t p label = some t1 := by
  induction fuel with
  | zero => intro t p label t1 h; simp [deepBuildAssemblyTree] at h
  | succ fuel ih =>
    intro t p label t1 h
    rw [deepBuildAssemblyTree_succ] at h ⊢
    cases hr : t.appendChild p label with
    | none => rw [hr] at h; cases h
    | some r =>
      rw [hr] at h
      simp only [Option.some_bind] at h ⊢
      exact forEachLabel_mono _ _ (fun t2 c t3 h2 => ih t2 r.1 c t3 h2) _ _ _ h

theorem deepBuildAssemblyTree_mono_le {L : Type} [Inhabited L] (doc : ShapeDocument L)
    (fuel fuel1 : Nat) (hle : fuel ≤ fuel1) (t : Tree L) (p : Nat) (label : L) (t1 : Tree L)
    (h : deepBuildAssemblyTree doc fuel t p label = some t1) :
    deepBuildAssemblyTree doc fuel1 t p label = some t1 := by
  induction fuel1 with
  | zero =>
    have : fuel = 0 := Nat.le_zero.mp hle
    subst this
    exact h
  | succ k ih =>
    by_cases hk : fuel ≤ k
    · exact deepBuildAssemblyTree_mono doc k t p label t1 (ih hk)
    · have : fuel = k + 1 := by omega
      subst this
      exact h

theorem rebuildAssemblyTree_mono_le {L : Type} [Inhabited L] (doc : ShapeDocument L)
    (fuel fuel1 : Nat) (hle : fuel ≤ fuel1) (t t1 : Tree L)
    (h : rebuildAssemblyTree doc fuel t = some t1) :
    rebuildAssemblyTree doc fuel1 t = some t1 := by
  unfold rebuildAssemblyTree at h ⊢
  exact forEachLabel_mono _ _
    (fun t2 c t3 h2 => deepBuildAssemblyTree_mono_le doc fuel fuel1 hle t2 0 c t3 h2) _ _ _ h


/-- The visits below a node depend only on the children lists of the handles
from that node on. -/
theorem preorder_congr {T : Type} {t1 t2 : Tree T} (hwf1 : WellFormed t1) (hwf2 : WellFormed t2)
    (hle : t2.m_vecNode.length ≤ t1.m_vecNode.length) (d : Nat) :
    ∀ x, Known t2 x → t2.m_vecNode.length - x < d →
      (∀ q, x ≤ q → Known t2 q → childrenOf t1 q = childrenOf t2 q) →
      preorder t1 x = preorder t2 x := by
  induction d with
  | zero => intro x _ hd; exact absurd hd (Nat.not_lt_zero _)
  | succ d ih =>
    intro x hk hd hq
    have hk1 : Known t1 x := ⟨hk.1, le_trans hk.2 hle⟩
    rw [preorder_eq hwf1 x hk1, preorder_eq hwf2 x hk, hq x (Nat.le_refl _) hk]
    congr 2
    apply List.map_congr_left
    intro k hkm
    obtain ⟨hkk, hpar⟩ := (mem_childrenOf t2 x k).mp hkm
    have hlt := hwf2.parent_lt k hkk
    rw [hpar] at hlt
    have hk2 := hkk.2
    exact ih k hkk (by omega) (fun q hq1 hq2 => hq q (by omega) hq2)

theorem buildPost_nil {L : Type} [Inhabited L] (doc : ShapeDocument L) (t : Tree L) (p : Nat)
    (hwf : WellFormed t) : BuildPost doc t p [] t where
  wf := hwf
  le := Nat.le_refl _
  frame_parent := fun _ _ => rfl
  frame_data := fun _ _ => rfl
  frame_children := fun _ _ _ => rfl
  new_children := ⟨[], by simp, by simp, rfl, by simp⟩
  iso := fun h h1 h2 => absurd h1 (by omega)

theorem buildPost_cons {L : Type} [Inhabited L] (doc : ShapeDocument L) (t t2 t1 : Tree L)
    (p : Nat) (c : L) (rest : List L) (hp : p ≤ t.m_vecNode.length)
    (h2 : BuildPost doc t p [c] t2) (h1 : BuildPost doc t2 p rest t1) :
    BuildPost doc t p (c :: rest) t1 := by
  have hk2 : ∀ h, Known t h → Known t2 h := fun h hk => ⟨hk.1, le_trans hk.2 h2.le⟩
  obtain ⟨cs2, hc2, hgt2, hd2, hpre2⟩ := h2.new_children
  obtain ⟨cs1, hc1, hgt1, hd1, hpre1⟩ := h1.new_children
  have hcs2_known : ∀ x ∈ cs2, Known t2 x := by
    intro x hx
    have : x ∈ childrenOf t2 p := by
      rw [hc2]
      exact List.mem_append_right _ hx
    exact ((mem_childrenOf t2 p x).mp this).1
  have hle2 := h2.le
  have hle1 := h1.le
  constructor
  · exact h1.wf
  · exact le_trans h2.le h1.le
  · intro h hk
    rw [h1.frame_parent h (hk2 h hk), h2.frame_parent h hk]
  · intro h hk
    rw [h1.frame_data h (hk2 h hk), h2.frame_data h hk]
  · intro q hq hne
    rw [h1.frame_children q (le_trans hq h2.le) hne, h2.frame_children q hq hne]
  · refine ⟨cs2 ++ cs1, ?_, ?_, ?_, ?_⟩
    · rw [hc1, hc2, List.append_assoc]
    · intro x hx
      rcases List.mem_append.mp hx with hx2 | hx1
      · exact hgt2 x hx2
      · have := hgt1 x hx1
        omega
    · rw [List.map_append, hd1]
      have : cs2.map t1.nodeData = cs2.map t2.nodeData :=
        List.map_congr_left (fun x hx => h1.frame_data x (hcs2_known x hx))
      rw [this, hd2]
      rfl
    · rw [List.map_append, List.flatten_append, hpre1]
      have : cs2.map (preorder t1) = cs2.map (preorder t2) := by
        apply List.map_congr_left
        intro x hx
        have hxk := hcs2_known x hx
        have hxgt := hgt2 x hx
        apply preorder_congr h1.wf h2.wf h1.le (t2.m_vecNode.length - x + 1) x hxk (by omega)
        intro q hq1 hq2
        exact h1.frame_children q hq2.2 (by omega)
      rw [this, hpre2]
      have e := List.range'_append (t.m_vecNode.length + 1)
        (t2.m_vecNode.length - t.m_vecNode.length)
        (t1.m_vecNode.length - t2.m_vecNode.length) 1
      have e1 : t.m_vecNode.length + 1 + 1 * (t2.m_vecNode.length - t.m_vecNode.length) =
          t2.m_vecNode.length + 1 := by omega
      have e2 : t1.m_vecNode.length - t2.m_vecNode.length +
          (t2.m_vecNode.length - t.m_vecNode.length) =
          t1.m_vecNode.length - t.m_vecNode.length := by omega
      rw [e1, e2] at e
      exact e
  · intro h hlo hhi
    by_cases hh : h ≤ t2.m_vecNode.length
    · have hkh : Known t2 h := ⟨by omega, hh⟩
      rw [h1.frame_children h hh (by omega), h1.frame_data h hkh, ← h2.iso h hlo hh]
      apply List.map_congr_left
      intro x hx
      exact h1.frame_data x ((mem_childrenOf t2 h x).mp hx).1
    · exact h1.iso h (by omega) hhi

theorem buildPost_node {L : Type} [Inhabited L] (doc : ShapeDocument L) (t ta t1 : Tree L)
    (p : Nat) (label : L) (hwf : WellFormed t) (hp : p = 0 ∨ Known t p)
    (hpost : AppendPost t p label ta)
    (h1 : BuildPost doc ta (t.m_vecNode.length + 1) (doc.childLabels label) t1) :
    BuildPost doc t p [label] t1 := by
  have hwfa := wellFormed_post hwf hp hpost
  have hlena := hpost.length_eq
  have hle1 := h1.le
  have hple : p ≤ t.m_vecNode.length := by
    rcases hp with h | h
    · omega
    · exact h.2
  have hnew : Known ta (t.m_vecNode.length + 1) := post_known_new hpost
  obtain ⟨cs, hc, hgt, hd, hpre⟩ := h1.new_children
  have hkids : childrenOf t1 (t.m_vecNode.length + 1) = cs := by
    rw [hc, childrenOf_beyond hwfa _ (by omega)]
    rfl
  have hdata : t1.nodeData (t.m_vecNode.length + 1) = label := by
    rw [h1.frame_data _ hnew, post_nodeData_new hpost]
  constructor
  · exact h1.wf
  · omega
  · intro h hk
    rw [h1.frame_parent h (post_known_old hpost hk), post_nodeParent_old hpost hk]
  · intro h hk
    rw [h1.frame_data h (post_known_old hpost hk), post_nodeData_old hpost hk]
  · intro q hq hne
    rw [h1.frame_children q (by omega) (by omega), childrenOf_post hpost q,
      if_neg (Ne.symm hne), List.append_nil]
  · refine ⟨[t.m_vecNode.length + 1], ?_, ?_, ?_, ?_⟩
    · rw [h1.frame_children p (by omega) (by omega), childrenOf_post hpost p, if_pos rfl]
    · intro c hc
      rw [List.mem_singleton.mp hc]
      exact Nat.lt_succ_self _
    · simp only [List.map_cons, List.map_nil, hdata]
    · simp only [List.map_cons, List.map_nil, List.flatten_cons, List.flatten_nil,
        List.append_nil]
      rw [preorder_eq h1.wf _ ⟨Nat.succ_ne_zero _, by omega⟩, hkids, hpre, hlena]
      have e : t1.m_vecNode.length - t.m_vecNode.length =
          (t1.m_vecNode.length - (t.m_vecNode.length + 1)) + 1 := by omega
      rw [e, List.range'_succ]
  · intro h hlo hhi
    by_cases hh : h = t.m_vecNode.length + 1
    · subst hh
      rw [hkids, hd, hdata]
    · exact h1.iso h (by omega) hhi


theorem sumSizes_cons_eq_some {L : Type} (size : L → Option Nat) (c : L) (rest : List L)
    (N : Nat) (h : sumSizes size (c :: rest) = some N) :
    ∃ a b, size c = some a ∧ sumSizes size rest = some b ∧ N = a + b := by
  unfold sumSizes at h
  cases ha : size c with
  | none => rw [ha] at h; cases h
  | some a =>
    rw [ha] at h
    simp only [Option.some_bind] at h
    cases hb : sumSizes size rest with
    | none => rw [hb] at h; cases h
    | some b =>
      rw [hb] at h
      simp only [Option.map_some', Option.some.injEq] at h
      exact ⟨a, b, rfl, rfl, h.symm⟩

theorem forEachLabel_post {L : Type} [Inhabited L] (doc : ShapeDocument L) (fuel : Nat)
    (ih : ∀ (t : Tree L) (p : Nat) (label : L) (N : Nat), WellFormed t → (p = 0 ∨ Known t p) →
      unfoldedSize doc fuel label = some N →
      ∃ t1, deepBuildAssemblyTree doc fuel t p label = some t1 ∧
        t1.m_vecNode.length = t.m_vecNode.length + N ∧ BuildPost doc t p [label] t1)
    (labels : List L) :
    ∀ (t : Tree L) (p N : Nat), WellFormed t → (p = 0 ∨ Known t p) →
      sumSizes (unfoldedSize doc fuel) labels = some N →
      ∃ t1, forEachLabel (fun t2 child => deepBuildAssemblyTree doc fuel t2 p child) t labels
          = some t1 ∧
        t1.m_vecNode.length = t.m_vecNode.length + N ∧ BuildPost doc t p labels t1 := by
  induction labels with
  | nil =>
    intro t p N hwf _ hN
    have : N = 0 := by
      unfold sumSizes at hN
      exact (Option.some.inj hN).symm
    subst this
    exact ⟨t, rfl, rfl, buildPost_nil doc t p hwf⟩
  | cons c rest ihl =>
    intro t p N hwf hp hN
    obtain ⟨a, b, ha, hb, rfl⟩ := sumSizes_cons_eq_some _ c rest N hN
    obtain ⟨t2, hbuild2, hlen2, hpost2⟩ := ih t p c a hwf hp ha
    have hp2 : p = 0 ∨ Known t2 p := hp.imp id (fun hk => ⟨hk.1, le_trans hk.2 hpost2.le⟩)
    obtain ⟨t1, hbuild1, hlen1, hpost1⟩ := ihl t2 p b hpost2.wf hp2 hb
    have hple : p ≤ t.m_vecNode.length := by
      rcases hp with h | h
      · omega
      · exact h.2
    refine ⟨t1, ?_, by omega, buildPost_cons doc t t2 t1 p c rest hple hpost2 hpost1⟩
    unfold forEachLabel
    rw [hbuild2]
    exact hbuild1

/-- Building the subtree of a label whose unfolding is finite (within the fuel)
returns, adds as many nodes as the unfolding has, and satisfies `BuildPost`. -/
theorem deepBuildAssemblyTree_post {L : Type} [Inhabited L] (doc : ShapeDocument L)
    (fuel : Nat) :
    ∀ (t : Tree L) (p : Nat) (label : L) (N : Nat), WellFormed t → (p = 0 ∨ Known t p) →
      unfoldedSize doc fuel label = some N →
      ∃ t1, deepBuildAssemblyTree doc fuel t p label = some t1 ∧
        t1.m_vecNode.length = t.m_vecNode.length + N ∧ BuildPost doc t p [label] t1 := by
  induction fuel with
  | zero =>
    intro t p label N _ _ hN
    simp [unfoldedSize] at hN
  | succ fuel ih =>
    intro t p label N hwf hp hN
    rw [unfoldedSize] at hN
    cases hM : sumSizes (unfoldedSize doc fuel) (doc.childLabels label) with
    | none => rw [hM] at hN; cases hN
    | some M =>
      rw [hM] at hN
      simp only [Option.map_some', Option.some.injEq] at hN
      obtain ⟨ta, happ, hposta⟩ := appendChild_ok hwf p label hp
      have hwfa := wellFormed_post hwf hp hposta
      obtain ⟨t1, hloop, hlen1, hpost1⟩ := forEachLabel_post doc fuel ih (doc.childLabels label)
        ta (t.m_vecNode.length + 1) M hwfa (Or.inr (post_known_new hposta)) hM
      refine ⟨t1, ?_, ?_, buildPost_node doc t ta t1 p label hwf hp hposta hpost1⟩
      · rw [deepBuildAssemblyTree_succ, happ]
        exact hloop
      · rw [hlen1, hposta.length_eq]
        omega

/-- The rebuild of a finite hierarchy returns; the result does not depend on the
previous content of the tree, has as many nodes as the unfolded hierarchy, and
satisfies `BuildPost` relative to the empty tree. -/
theorem rebuildAssemblyTree_post {L : Type} [Inhabited L] (doc : ShapeDocument L)
    (fuel N : Nat) (hfin : unfoldedTotal doc fuel = some N) (t : Tree L) :
    ∃ t1, rebuildAssemblyTree doc fuel t = some t1 ∧ t1.m_vecNode.length = N ∧
      BuildPost doc Tree.empty 0 doc.topLevelFreeShapes t1 := by
  obtain ⟨t1, h1, h2, h3⟩ := forEachLabel_post doc fuel (deepBuildAssemblyTree_post doc fuel)
    doc.topLevelFreeShapes Tree.empty 0 N wellFormed_empty (Or.inl rfl) hfin
  refine ⟨t1, h1, ?_, h3⟩
  rw [h2]
  exact Nat.zero_add _


theorem rebuildAssemblyTree_sample :
    rebuildAssemblyTree sampleDocument 3 sampleTree4 = some sampleAssemblyTree := by decide

theorem rebuildAssemblyTree_prior {L : Type} [Inhabited L] (doc : ShapeDocument L) (fuel : Nat)
    (t t2 : Tree L) : rebuildAssemblyTree doc fuel t = rebuildAssemblyTree doc fuel t2 := rfl

/-- C13: the structural rebuild is idempotent.  For every finite external
hierarchy (its unfolding completes within some fuel) and every prior state `t`
of the owned tree, `rebuildAssemblyTree` returns a tree `t1`, and running it
again on `t1` with the hierarchy unchanged returns exactly `t1` again (same
arena, hence same handles, links and payloads, and same roots): running it
twice in a row gives what running it once gives. -/
theorem C13_rebuild_is_idempotent {L : Type} [Inhabited L] (doc : ShapeDocument L)
    (fuel N : Nat) (hfin : unfoldedTotal doc fuel = some N) (t : Tree L) :
    ∃ t1, (∀ fuel1, fuel ≤ fuel1 → rebuildAssemblyTree doc fuel1 t = some t1) ∧
      (∀ fuel1, fuel ≤ fuel1 → rebuildAssemblyTree doc fuel1 t1 = some t1) ∧
      (∀ fuel1 fuel2, fuel ≤ fuel1 → fuel ≤ fuel2 →
        (rebuildAssemblyTree doc fuel1 t).bind (rebuildAssemblyTree doc fuel2) =
          rebuildAssemblyTree doc fuel1 t) := by
  obtain ⟨t1, h1, _, _⟩ := rebuildAssemblyTree_post doc fuel N hfin t
  have hall : ∀ fuel1, fuel ≤ fuel1 → ∀ t2, rebuildAssemblyTree doc fuel1 t2 = some t1 := by
    intro fuel1 hle t2
    rw [rebuildAssemblyTree_prior doc fuel1 t2 t]
    exact rebuildAssemblyTree_mono_le doc fuel fuel1 hle t t1 h1
  refine ⟨t1, fun fuel1 hle => hall fuel1 hle t, fun fuel1 hle => hall fuel1 hle t1, ?_⟩
  intro fuel1 fuel2 hle1 hle2
  rw [hall fuel1 hle1 t, Option.some_bind, hall fuel2 hle2 t1]

theorem C13_rebuild_is_idempotent_witness :
    ∃ t1, (∀ fuel1, 3 ≤ fuel1 → rebuildAssemblyTree sampleDocument fuel1 sampleTree4 = some t1) ∧
      (∀ fuel1, 3 ≤ fuel1 → rebuildAssemblyTree sampleDocument fuel1 t1 = some t1) ∧
      (∀ fuel1 fuel2, 3 ≤ fuel1 → 3 ≤ fuel2 →
        (rebuildAssemblyTree sampleDocument fuel1 sampleTree4).bind
            (rebuildAssemblyTree sampleDocument fuel2) =
          rebuildAssemblyTree sampleDocument fuel1 sampleTree4) :=
  C13_rebuild_is_idempotent sampleDocument 3 6 (by decide) sampleTree4

/-- C14: the rebuilt tree is isomorphic to the external hierarchy.  For every
finite external hierarchy and every prior tree, after `rebuildAssemblyTree` the
payloads of `roots()`, in order, are the top-level free shapes, and for every
node `n` with payload `l` the payloads of the child chain of `n`, in order, are
`shapeComponents(l)` if `l` is an assembly, otherwise `shapeSubs(l)` if `l` is a
simple shape, otherwise the one label `shapeReferred(l)` if `l` is a reference,
otherwise none; nothing of the previous content remains: the result is the one
obtained from the empty tree and has exactly as many nodes as the unfolded
hierarchy. -/
theorem C14_rebuilt_tree_mirrors_hierarchy {L : Type} [Inhabited L] (doc : ShapeDocument L)
    (fuel N : Nat) (hfin : unfoldedTotal doc fuel = some N) (t : Tree L) :
    ∃ t1, (∀ fuel1, fuel ≤ fuel1 → rebuildAssemblyTree doc fuel1 t = some t1) ∧
      t1.roots.map t1.nodeData = doc.topLevelFreeShapes ∧
      (∀ n, Known t1 n → ∃ chain,
        (∀ f, t1.m_vecNode.length < f → childChain t1 f n = some chain) ∧
        chain.map t1.nodeData =
          if doc.isShapeAssembly (t1.nodeData n) then doc.shapeComponents (t1.nodeData n)
          else if doc.isShapeSimple (t1.nodeData n) then doc.shapeSubs (t1.nodeData n)
          else if doc.isShapeReference (t1.nodeData n) then [doc.shapeReferred (t1.nodeData n)]
          else []) ∧
      t1.m_vecNode.length = N ∧
      rebuildAssemblyTree doc fuel t = rebuildAssemblyTree doc fuel Tree.empty := by
  obtain ⟨t1, h1, hlen, hpost⟩ := rebuildAssemblyTree_post doc fuel N hfin t
  obtain ⟨cs, hc, _, hd, _⟩ := hpost.new_children
  have hwf := hpost.wf
  refine ⟨t1, fun fuel1 hle => rebuildAssemblyTree_mono_le doc fuel fuel1 hle t t1 h1, ?_, ?_,
    hlen, rfl⟩
  · have hr : t1.roots = cs := by
      unfold Tree.roots
      rw [hwf.roots_eq, hc]
      rfl
    rw [hr, hd]
  · intro n hk
    refine ⟨childrenOf t1 n, fun f hf => childChain_eq hwf n hk f hf, ?_⟩
    exact hpost.iso n (Nat.pos_of_ne_zero hk.1) hk.2

theorem C14_rebuilt_tree_mirrors_hierarchy_witness :
    ∃ t1, (∀ fuel1, 3 ≤ fuel1 → rebuildAssemblyTree sampleDocument fuel1 sampleTree4 = some t1) ∧
      t1.roots.map t1.nodeData = sampleDocument.topLevelFreeShapes ∧
      (∀ n, Known t1 n → ∃ chain,
        (∀ f, t1.m_vecNode.length < f → childChain t1 f n = some chain) ∧
        chain.map t1.nodeData =
          if sampleDocument.isShapeAssembly (t1.nodeData n) then
            sampleDocument.shapeComponents (t1.nodeData n)
          else if sampleDocument.isShapeSimple (t1.nodeData n) then
            sampleDocument.shapeSubs (t1.nodeData n)
          else if sampleDocument.isShapeReference (t1.nodeData n) then
            [sampleDocument.shapeReferred (t1.nodeData n)]
          else []) ∧
      t1.m_vecNode.length = 6 ∧
      rebuildAssemblyTree sampleDocument 3 sampleTree4 =
        rebuildAssemblyTree sampleDocument 3 Tree.empty :=
  C14_rebuilt_tree_mirrors_hierarchy sampleDocument 3 6 (by decide) sampleTree4

/-- C19: the handles of a rebuilt tree are numbered in traversal order.  For
every finite external hierarchy whose unfolding has `N` nodes, the tree produced
by `rebuildAssemblyTree` has exactly the handles `1..N`, and
`deepForeachTreeNode` over it terminates and visits them in the increasing order
`1, 2, ..., N`. -/
theorem C19_rebuilt_handles_in_traversal_order {L : Type} [Inhabited L]
    (doc : ShapeDocument L) (fuel N : Nat) (hfin : unfoldedTotal doc fuel = some N)
    (t : Tree L) :
    ∃ t1, (∀ fuel1, fuel ≤ fuel1 → rebuildAssemblyTree doc fuel1 t = some t1) ∧
      t1.m_vecNode.length = N ∧
      (∀ h, (t1.ptrNode h).isSome = true ↔ 1 ≤ h ∧ h ≤ N) ∧
      (∀ f, 2 * N ≤ f → deepForeachTreeNode t1 f = some (List.range' 1 N)) := by
  obtain ⟨t1, h1, hlen, hpost⟩ := rebuildAssemblyTree_post doc fuel N hfin t
  obtain ⟨cs, hc, _, _, hpre⟩ := hpost.new_children
  have hwf := hpost.wf
  refine ⟨t1, fun fuel1 hle => rebuildAssemblyTree_mono_le doc fuel fuel1 hle t t1 h1, hlen,
    ?_, ?_⟩
  · intro h
    constructor
    · intro hs
      have hk : Known t1 h := by
        by_contra hk
        rw [ptrNode_eq_none t1 h hk] at hs
        cases hs
      have h1 := hk.1
      have h2 := hk.2
      omega
    · rintro ⟨h1, h2⟩
      obtain ⟨nd, hnd⟩ := ptrNode_isSome t1 h ⟨by omega, by omega⟩
      rw [hnd]
      rfl
  · intro f hf
    have hr : t1.roots = cs := by
      unfold Tree.roots
      rw [hwf.roots_eq, hc]
      rfl
    rw [deepForeachTreeNode_eq hwf f (by omega), hr, hpre, hlen]
    rfl

theorem C19_rebuilt_handles_in_traversal_order_witness :
    ∃ t1, (∀ fuel1, 3 ≤ fuel1 → rebuildAssemblyTree sampleDocument fuel1 sampleTree4 = some t1) ∧
      t1.m_vecNode.length = 6 ∧
      (∀ h, (t1.ptrNode h).isSome = true ↔ 1 ≤ h ∧ h ≤ 6) ∧
      (∀ f, 2 * 6 ≤ f → deepForeachTreeNode t1 f = some (List.range' 1 6)) :=
  C19_rebuilt_handles_in_traversal_order sampleDocument 3 6 (by decide) sampleTree4

end Mayo

